import Mathlib

/-!
Shallow embedding of the FJSP genetic-algorithm core of the
`unified_fjsp_system` repository: the data model and instance generator of
`core/data_adapter.py` and the evolutionary solver of
`algorithms/unified_solver.py`, together with theorems settling the
specification's claims about them.

Python's random draws (`np.random.*`) are modelled by explicit oracle
structures whose fields return the values the corresponding calls would
produce, so every embedded function is a deterministic function of the
oracle.  Python exceptions are modelled with `Except PyError`.
-/

/-- Python-level exceptions raised by the embedded code paths. -/
inductive PyError where
  | valueError
  | indexError
  | typeError
  deriving DecidableEq, Repr

/-- Embedding of the `UnifiedOperation` dataclass of `core/data_adapter.py`
(`due_date` and `release_time` are never read by the embedded code and are
omitted). -/
structure UnifiedOperation where
  job_id : Nat
  operation_id : Nat
  machines : List Nat
  processing_times : List Nat
  setup_time : Nat := 0
  deriving DecidableEq, Repr

/-- Embedding of the `UnifiedFJSPInstance` dataclass of
`core/data_adapter.py` (the untyped `metadata` dict is omitted). -/
structure UnifiedFJSPInstance where
  name : String
  num_jobs : Nat
  num_machines : Nat
  operations : List UnifiedOperation
  deriving DecidableEq, Repr

/-- Embedding of the dataclass constructor of `UnifiedFJSPInstance`: its
`__post_init__` only fills in `metadata`, so construction performs no
validation at all. -/
def mkUnifiedFJSPInstance (name : String) (num_jobs num_machines : Nat)
    (operations : List UnifiedOperation) : UnifiedFJSPInstance :=
  ⟨name, num_jobs, num_machines, operations⟩

/-- Ghost record of one placement made by `_decode_solution`: the genome
entry `op_idx`, the operation's job, the machine chosen, and the computed
start/end times.  The Python code does not store this per-operation record;
it is carried here purely as an observation of the run. -/
structure TraceEntry where
  opIdx : Nat
  job : Nat
  machine : Nat
  start : Nat
  stop : Nat
  deriving DecidableEq, Repr

/-- State of the decoding loop of
`EvolutionaryAlgorithmSolver._decode_solution`:
`machineSchedules` is the dict `{i: [] for i in range(num_machines)}` as a
list indexed by machine id, `jobCompletionTimes` is the
`[0] * instance.num_jobs` list, `makespan` the running maximum, and `trace`
the ghost trace of placements. -/
structure DecodeState where
  machineSchedules : List (List (Nat × Nat))
  jobCompletionTimes : List Nat
  makespan : Nat
  trace : List TraceEntry
  deriving DecidableEq, Repr

/-- Embedding of `max([end_time for _, end_time in lst], default=0)`. -/
def maxEndTime (l : List (Nat × Nat)) : Nat :=
  (l.map Prod.snd).foldl max 0

/-- Initial decode state of `_decode_solution`. -/
def initDecodeState (inst : UnifiedFJSPInstance) : DecodeState :=
  { machineSchedules := List.replicate inst.num_machines []
    jobCompletionTimes := List.replicate inst.num_jobs 0
    makespan := 0
    trace := [] }

/-- One iteration of the genome loop in `_decode_solution`.  A genome entry
that is not `< len(instance.operations)` is skipped (the body is guarded by
`if op_idx < len(instance.operations)`), leaving the state unchanged.  The
machine is `op.machines[0] if op.machines else 0` and the processing time
`op.processing_times[0] if op.processing_times else 1`. -/
def decodeStep (inst : UnifiedFJSPInstance) (st : DecodeState) (op_idx : Nat) :
    DecodeState :=
  if h : op_idx < inst.operations.length then
    let op := inst.operations.get ⟨op_idx, h⟩
    let machine := op.machines.headD 0
    let processing_time := op.processing_times.headD 1
    let machine_available_time := maxEndTime (st.machineSchedules.getD machine [])
    let job_ready_time := st.jobCompletionTimes.getD op.job_id 0
    let start_time := max machine_available_time job_ready_time
    let end_time := start_time + processing_time
    { machineSchedules := st.machineSchedules.set machine
        ((st.machineSchedules.getD machine []) ++ [(start_time, end_time)])
      jobCompletionTimes := st.jobCompletionTimes.set op.job_id end_time
      makespan := max st.makespan end_time
      trace := st.trace ++ [⟨op_idx, op.job_id, machine, start_time, end_time⟩] }
  else st

/-- Embedding of `EvolutionaryAlgorithmSolver._decode_solution`. -/
def decodeSolution (inst : UnifiedFJSPInstance) (individual : List Nat) :
    DecodeState :=
  individual.foldl (decodeStep inst) (initDecodeState inst)

/-- Embedding of `EvolutionaryAlgorithmSolver._evaluate_fitness`: the
decoded schedule's makespan (the dict always carries the key). -/
def evaluateFitness (inst : UnifiedFJSPInstance) (individual : List Nat) : Nat :=
  (decodeSolution inst individual).makespan

/-- Embedding of the filling loop of
`EvolutionaryAlgorithmSolver._fill_offspring`: positions still holding the
`-1` sentinel (modelled as `none`) are filled, in order, from the filtered
parent; exhausting the filtered parent while a hole remains is Python's
`IndexError` (result `none`). -/
def fillHoles : List (Option Nat) → List Nat → Option (List Nat)
  | [], _ => some []
  | none :: _, [] => none
  | none :: cs, f :: fs => (fillHoles cs fs).map (fun r => f :: r)
  | some c :: cs, fs => (fillHoles cs fs).map (fun r => c :: r)

/-- Embedding of `EvolutionaryAlgorithmSolver._fill_offspring`:
`child_set = set(child[start:end])`, `parent_filtered` keeps the parent
values outside that set, and the holes are filled in order. -/
def fill_offspring (child : List (Option Nat)) (parent : List Nat)
    (start endPos : Nat) : Option (List Nat) :=
  let child_set := ((child.drop start).take (endPos - start)).filterMap id
  let parent_filtered := parent.filter (fun x => !(decide (x ∈ child_set)))
  fillHoles child parent_filtered

/-- The child initialisation of `_crossover`: `child = [-1] * size` followed
by the slice assignment `child[start:end] = parent[start:end]` (for
`endPos ≤ size`, which `np.random.choice(size, 2, replace=False)`
guarantees), with `-1` modelled as `none`. -/
def sliceChild (parent : List Nat) (start endPos : Nat) : List (Option Nat) :=
  List.replicate start none
    ++ ((parent.drop start).take (endPos - start)).map some
    ++ List.replicate (parent.length - endPos) none

/-- The order-crossover branch of `EvolutionaryAlgorithmSolver._crossover`
for one parent pair and already-drawn cut points. -/
def orderCrossover (p1 p2 : List Nat) (start endPos : Nat) :
    Option (List Nat × List Nat) :=
  match fill_offspring (sliceChild p1 start endPos) p2 start endPos,
        fill_offspring (sliceChild p2 start endPos) p1 start endPos with
  | some c1, some c2 => some (c1, c2)
  | _, _ => none

/-- Deterministic stand-in for the `np.random` draws made by
`EvolutionaryAlgorithmSolver.solve` and its helpers.  Each field returns
the value the corresponding library call would produce:
`shuffleDraw k` is the shuffled genome of the `k`-th initial individual,
`tournamentDraw g t` the three indices drawn by tournament `t` of
generation `g`, `crossDraw g i` and `mutDraw g i` the `np.random.random()`
samples compared against the rates, `cutDraw g i` the two distinct cut
indices, and `swapDraw g i` the two distinct swap positions. -/
structure RandomOracle where
  shuffleDraw : Nat → List Nat
  tournamentDraw : Nat → Nat → List Nat
  crossDraw : Nat → Nat → Rat
  cutDraw : Nat → Nat → Nat × Nat
  mutDraw : Nat → Nat → Rat
  swapDraw : Nat → Nat → Nat × Nat

/-- Embedding of `EvolutionaryAlgorithmSolver._initialize_population`. -/
def initPopulation (o : RandomOracle) (size : Nat) : List (List Nat) :=
  (List.range size).map o.shuffleDraw

/-- Embedding of `np.argmin` on a list of naturals: the first index of the
minimum. -/
def argminAux : List Nat → Nat → Nat → Nat → Nat
  | [], _, bi, _ => bi
  | x :: xs, i, bi, bv =>
      if x < bv then argminAux xs (i + 1) i x else argminAux xs (i + 1) bi bv

/-- First index of the minimal element (`np.argmin`); 0 on the empty list. -/
def argmin : List Nat → Nat
  | [] => 0
  | x :: xs => argminAux xs 1 0 x

/-- First index of a value in a list (`list.index`); length if absent. -/
def indexOfNat : List Nat → Nat → Nat
  | [], _ => 0
  | x :: xs, v => if x = v then 0 else indexOfNat xs v + 1

/-- Embedding of `EvolutionaryAlgorithmSolver._selection`: tournament
selection with tournament size 3.  `np.random.choice(n, 3, replace=False)`
raises `ValueError` when `0 < n < 3`; when the population is empty the
`for` loop body never runs and the empty selection is returned. -/
def selection (o : RandomOracle) (g : Nat) (population : List (List Nat))
    (fitness_scores : List Nat) : Except PyError (List (List Nat)) :=
  if population.length = 0 then .ok []
  else if population.length < 3 then .error .valueError
  else .ok ((List.range population.length).map (fun t =>
    let tournament_indices := o.tournamentDraw g t
    let tournament_fitness := tournament_indices.map (fun i => fitness_scores.getD i 0)
    let winner_idx := tournament_indices.getD (argmin tournament_fitness) 0
    population.getD winner_idx []))

/-- One parent pair in `EvolutionaryAlgorithmSolver._crossover`: with
`np.random.random() < rate`, apply order crossover at drawn cut points
(`np.random.choice(size, 2, replace=False)` raises `ValueError` when the
genome is shorter than 2; `sorted` of the two distinct draws is their
min/max); otherwise both parents pass through as copies. -/
def crossPair (o : RandomOracle) (g pairIdx : Nat) (rate : Rat)
    (p1 p2 : List Nat) : Except PyError (List Nat × List Nat) :=
  if o.crossDraw g pairIdx < rate then
    if p1.length < 2 then .error .valueError
    else
      let d := o.cutDraw g pairIdx
      match orderCrossover p1 p2 (min d.1 d.2) (max d.1 d.2) with
      | some cs => .ok cs
      | none => .error .indexError
  else .ok (p1, p2)

/-- The pairing loop of `_crossover`: individuals are processed in
consecutive pairs `(i, i+1)`; a trailing odd individual is paired with
`population[0]` (carried here as `first`). -/
def crossoverAux (o : RandomOracle) (g : Nat) (rate : Rat) (first : List Nat) :
    Nat → List (List Nat) → Except PyError (List (List Nat))
  | _, [] => .ok []
  | i, [p1] => do
      let cs ← crossPair o g i rate p1 first
      .ok [cs.1, cs.2]
  | i, p1 :: p2 :: rest => do
      let cs ← crossPair o g i rate p1 p2
      let tail ← crossoverAux o g rate first (i + 2) rest
      .ok (cs.1 :: cs.2 :: tail)

/-- Embedding of `EvolutionaryAlgorithmSolver._crossover` over the whole
selected population. -/
def crossoverPop (o : RandomOracle) (g : Nat) (population : List (List Nat))
    (rate : Rat) : Except PyError (List (List Nat)) :=
  match population with
  | [] => .ok []
  | p :: _ => crossoverAux o g rate p 0 population

/-- One individual in `EvolutionaryAlgorithmSolver._mutation`: with
`np.random.random() < rate`, swap the two drawn positions
(`np.random.choice(len, 2, replace=False)` raises `ValueError` when the
genome is shorter than 2). -/
def mutateOne (o : RandomOracle) (g idx : Nat) (rate : Rat)
    (individual : List Nat) : Except PyError (List Nat) :=
  if o.mutDraw g idx < rate then
    if individual.length < 2 then .error .valueError
    else
      let d := o.swapDraw g idx
      let v1 := individual.getD d.1 0
      let v2 := individual.getD d.2 0
      .ok ((individual.set d.1 v2).set d.2 v1)
  else .ok individual

/-- The loop of `_mutation` over the population. -/
def mutationAux (o : RandomOracle) (g : Nat) (rate : Rat) :
    Nat → List (List Nat) → Except PyError (List (List Nat))
  | _, [] => .ok []
  | i, ind :: rest => do
      let m ← mutateOne o g i rate ind
      let tail ← mutationAux o g rate (i + 1) rest
      .ok (m :: tail)

/-- Embedding of `EvolutionaryAlgorithmSolver._mutation`. -/
def mutationPop (o : RandomOracle) (g : Nat) (population : List (List Nat))
    (rate : Rat) : Except PyError (List (List Nat)) :=
  mutationAux o g rate 0 population

/-- The GA configuration read from `kwargs` by
`EvolutionaryAlgorithmSolver.solve` (rates as rationals standing for the
Python floats). -/
structure GAConfig where
  population_size : Nat
  generations : Nat
  mutation_rate : Rat
  crossover_rate : Rat

/-- Loop state of `solve`: the population, the best-known
(fitness, genome) pair (`None`/`inf` before any update, modelled as
`none`), and the convergence history accumulated so far. -/
structure GAState where
  population : List (List Nat)
  best : Option (Nat × List Nat)
  history : List Nat
  deriving DecidableEq, Repr

/-- Embedding of the result dataclass `SolutionResult` (the wall-clock
`computation_time`, `objectives` duplicate of the makespan, and `metadata`
are omitted). -/
structure SolutionResult where
  schedule : DecodeState
  makespan : Nat
  algorithm : String
  iterations : Nat
  convergence_history : List Nat
  deriving DecidableEq, Repr

/-- One generation of the loop body of `EvolutionaryAlgorithmSolver.solve`:
evaluate fitness (`min([])` raises `ValueError` for an empty population),
update the best-known pair, append it to the history, then select,
recombine, and mutate. -/
def runGeneration (o : RandomOracle) (inst : UnifiedFJSPInstance)
    (mutation_rate crossover_rate : Rat) (g : Nat) (st : GAState) :
    Except PyError GAState := do
  let fitness_scores := st.population.map (fun ind => evaluateFitness inst ind)
  match fitness_scores.min? with
  | none => .error .valueError
  | some min_fitness =>
    let bestPair : Nat × List Nat :=
      match st.best with
      | none => (min_fitness, st.population.getD (indexOfNat fitness_scores min_fitness) [])
      | some b =>
          if min_fitness < b.1 then
            (min_fitness, st.population.getD (indexOfNat fitness_scores min_fitness) [])
          else b
    let selected ← selection o g st.population fitness_scores
    let offspring ← crossoverPop o g selected crossover_rate
    let mutated ← mutationPop o g offspring mutation_rate
    .ok ⟨mutated, some bestPair, st.history ++ [bestPair.1]⟩

/-- The generation loop of `solve`, counting down the remaining
generations while `g` tracks the generation index. -/
def gaLoop (o : RandomOracle) (inst : UnifiedFJSPInstance)
    (mutation_rate crossover_rate : Rat) :
    Nat → Nat → GAState → Except PyError GAState
  | 0, _, st => .ok st
  | n + 1, g, st => do
      let st' ← runGeneration o inst mutation_rate crossover_rate g st
      gaLoop o inst mutation_rate crossover_rate n (g + 1) st'

/-- Embedding of `EvolutionaryAlgorithmSolver.solve`.  No configuration
validation of any kind is performed; after the loop,
`_decode_solution(best_solution, ...)` iterates over `best_solution`, so a
still-`None` best (zero generations) raises `TypeError`. -/
def gaSolve (o : RandomOracle) (inst : UnifiedFJSPInstance) (cfg : GAConfig) :
    Except PyError SolutionResult := do
  let population := initPopulation o cfg.population_size
  let final ← gaLoop o inst cfg.mutation_rate cfg.crossover_rate
    cfg.generations 0 ⟨population, none, []⟩
  match final.best with
  | none => .error .typeError
  | some best => .ok {
      schedule := decodeSolution inst best.2
      makespan := best.1
      algorithm := "GeneticAlgorithm"
      iterations := cfg.generations
      convergence_history := final.history }

/-- Embedding of `UnifiedSolverManager.solve_parallel`.  The thread pool is
collected in submission order, which the sequential model reproduces;
`outcome a = none` models an `alg_name` absent from `self.solvers` (where
`run_solver` returns `(alg_name, None)` without calling any solver), and
`outcome a = some r` the result of `self.solvers[a].solve(...)`: `run_solver`
catches a raised exception (`Except.error`) and turns it into `None`, and
the collection loop stores only non-`None` results. -/
def solve_parallel (outcome : String → Option (Except PyError SolutionResult))
    (algorithms : List String) : List (String × SolutionResult) :=
  algorithms.filterMap (fun a =>
    match outcome a with
    | some (Except.ok r) => some (a, r)
    | _ => none)

/-- Node of the disjunctive graph built by
`DataAdapter.build_disjunctive_graph`: `SOURCE`, `SINK`, or the node
`f"J{job_id}_O{operation_id}"`. -/
inductive GraphNode where
  | src
  | sink
  | opNode (job_id operation_id : Nat)
  deriving DecidableEq, Repr

/-- Edge attributes set by `G.add_edge(..., edge_type=..., machine=...)`. -/
inductive EdgeType where
  | conjunctive
  | disjunctive (machine : Nat)
  deriving DecidableEq, Repr

/-- A directed edge of the graph with its current attributes. -/
structure GraphEdge where
  srcNode : GraphNode
  tgtNode : GraphNode
  attr : EdgeType
  deriving DecidableEq, Repr

/-- Semantics of `nx.DiGraph.add_edge`: a `DiGraph` stores at most one edge
per ordered node pair, and re-adding an existing edge overwrites its
attributes in place. -/
def addEdge (edges : List GraphEdge) (u v : GraphNode) (a : EdgeType) :
    List GraphEdge :=
  if edges.any (fun e => decide (e.srcNode = u ∧ e.tgtNode = v)) then
    edges.map (fun e => if e.srcNode = u ∧ e.tgtNode = v then ⟨u, v, a⟩ else e)
  else edges ++ [⟨u, v, a⟩]

/-- The attribute of the edge `u → v`, when present. -/
def lookupEdge (edges : List GraphEdge) (u v : GraphNode) : Option EdgeType :=
  (edges.find? (fun e => decide (e.srcNode = u ∧ e.tgtNode = v))).map GraphEdge.attr

/-- Key-insertion order of a Python dict populated by iterating a list:
first appearance order. -/
def insertionOrder (l : List Nat) : List Nat :=
  l.foldl (fun acc m => if m ∈ acc then acc else acc ++ [m]) []

/-- The iteration order of the `machine_operations` dict of
`build_disjunctive_graph`. -/
def machineOrder (inst : UnifiedFJSPInstance) : List Nat :=
  insertionOrder ((inst.operations.map (fun op => op.machines)).flatten)

/-- The value `machine_operations[m]`: the operations listing machine `m`,
in instance order. -/
def machineOps (inst : UnifiedFJSPInstance) (m : Nat) : List UnifiedOperation :=
  inst.operations.filter (fun op => decide (m ∈ op.machines))

/-- The node id of an operation. -/
def opNodeOf (op : UnifiedOperation) : GraphNode :=
  .opNode op.job_id op.operation_id

/-- All pairs `(ops[i], ops[j])` with `i < j`, in the double-loop order of
the source. -/
def orderedPairs : List UnifiedOperation → List (UnifiedOperation × UnifiedOperation)
  | [] => []
  | x :: xs => xs.map (fun y => (x, y)) ++ orderedPairs xs

/-- The disjunctive `add_edge` calls issued while processing machine `m` of
the `machine_operations` dict, in execution order: per unordered pair of
`m`-eligible operations from different jobs, both directed edges tagged
with `m`. -/
def machineBlock (inst : UnifiedFJSPInstance) (m : Nat) : List GraphEdge :=
  ((orderedPairs (machineOps inst m)).map (fun p =>
    if p.1.job_id ≠ p.2.job_id then
      [⟨opNodeOf p.1, opNodeOf p.2, .disjunctive m⟩,
       ⟨opNodeOf p.2, opNodeOf p.1, .disjunctive m⟩]
    else [])).flatten

/-- All disjunctive `add_edge` calls of `build_disjunctive_graph`, in
execution order over the machine dict. -/
def disjunctiveInserts (inst : UnifiedFJSPInstance) : List GraphEdge :=
  ((machineOrder inst).map (machineBlock inst)).flatten

/-- The last attribute written for the ordered node pair `(u, v)` by a
sequence of `add_edge` calls, if any. -/
def lastWrite (L : List GraphEdge) (u v : GraphNode) : Option EdgeType :=
  (L.reverse.find? (fun e => decide (e.srcNode = u ∧ e.tgtNode = v))).map
    GraphEdge.attr

/-- The iteration order of the `job_operations` dict. -/
def jobOrder (inst : UnifiedFJSPInstance) : List Nat :=
  insertionOrder (inst.operations.map (fun op => op.job_id))

/-- Stable insertion of an operation into a list sorted by `operation_id`:
an element with an equal key goes after the existing ones, matching the
stability of Python's `list.sort`. -/
def insertSorted (op : UnifiedOperation) :
    List UnifiedOperation → List UnifiedOperation
  | [] => [op]
  | x :: xs =>
      if op.operation_id < x.operation_id then op :: x :: xs
      else x :: insertSorted op xs

/-- Stable sort by `operation_id`: the semantics of
`ops.sort(key=lambda x: x.operation_id)` (Python's sort is stable, and a
stable sort's output is uniquely determined). -/
def sortByOpId : List UnifiedOperation → List UnifiedOperation
  | [] => []
  | x :: xs => insertSorted x (sortByOpId xs)

/-- The value `job_operations[j]` after the `sort(key=operation_id)` call. -/
def jobOps (inst : UnifiedFJSPInstance) (j : Nat) : List UnifiedOperation :=
  sortByOpId (inst.operations.filter (fun op => decide (op.job_id = j)))

/-- The conjunctive `add_edge` calls of `build_disjunctive_graph`, in
execution order: `SOURCE` to each job's first operation, consecutive
operations, last operation to `SINK`. -/
def conjunctiveInserts (inst : UnifiedFJSPInstance) : List GraphEdge :=
  ((jobOrder inst).map (fun j =>
    match jobOps inst j with
    | [] => []
    | o1 :: rest =>
        ⟨.src, opNodeOf o1, .conjunctive⟩
          :: (((o1 :: rest).zip rest).map (fun p =>
                ⟨opNodeOf p.1, opNodeOf p.2, .conjunctive⟩))
          ++ [⟨opNodeOf ((o1 :: rest).getLastD o1), .sink, .conjunctive⟩])).flatten

/-- Embedding of `DataAdapter.build_disjunctive_graph`, as its edge
relation (node attributes are set but never consulted by the claims). -/
def build_disjunctive_graph (inst : UnifiedFJSPInstance) : List GraphEdge :=
  (conjunctiveInserts inst ++ disjunctiveInserts inst).foldl
    (fun es e => addEdge es e.srcNode e.tgtNode e.attr) []

/-- Deterministic stand-in for the `np.random` draws made by
`InstanceGenerator.generate_random_fjsp`: `numOpsDraw j` is the
`np.random.randint(1, max_operations_per_job + 1)` sample for job `j`,
`machinesDraw j i` the machine list drawn by
`np.random.choice(num_machines, size, replace=False).tolist()` for
operation `i` of job `j`, and `timesDraw j i` the corresponding per-machine
`np.random.randint(min, max + 1)` samples. -/
structure GeneratorOracle where
  numOpsDraw : Nat → Nat
  machinesDraw : Nat → Nat → List Nat
  timesDraw : Nat → Nat → List Nat

/-- The inner operation loop of `generate_random_fjsp` for one job:
`np.random.choice(num_machines, size=num_available, replace=False)` raises
`ValueError` when `num_machines = 0` (choice over an empty range) or when
`num_available > num_machines` (sample larger than population). -/
def genJobOps (o : GeneratorOracle) (num_machines num_available : Nat)
    (job_id num_operations : Nat) : Except PyError (List UnifiedOperation) :=
  (List.range num_operations).mapM (fun op_id =>
    if num_machines = 0 ∨ num_machines < num_available then
      Except.error PyError.valueError
    else
      Except.ok { job_id := job_id, operation_id := op_id,
                  machines := o.machinesDraw job_id op_id,
                  processing_times := o.timesDraw job_id op_id })

/-- Embedding of `InstanceGenerator.generate_random_fjsp`.
`int(num_machines * flexibility)` is floor here (the product is
non-negative for the generator's flexibility range).  No validation of
`num_jobs`, `num_machines`, or the generated operations is performed. -/
def generate_random_fjsp (o : GeneratorOracle) (num_jobs num_machines : Nat)
    (flexibility : Rat) : Except PyError UnifiedFJSPInstance := do
  let num_available := max 1 (Rat.floor ((num_machines : Rat) * flexibility)).toNat
  let opss ← (List.range num_jobs).mapM (fun job_id =>
    genJobOps o num_machines num_available job_id (o.numOpsDraw job_id))
  Except.ok {
    name := "Random_FJSP_" ++ toString num_jobs ++ "x" ++ toString num_machines
    num_jobs := num_jobs
    num_machines := num_machines
    operations := opss.flatten }

/-- The interval recorded for the operation with genome index `idx`, read
off the ghost trace. -/
def opInterval (st : DecodeState) (idx : Nat) : Option (Nat × Nat) :=
  (st.trace.find? (fun e => decide (e.opIdx = idx))).map (fun e => (e.start, e.stop))

/-- The sub-trace of placements belonging to job `j`, in scheduling order. -/
def jobTrace (st : DecodeState) (j : Nat) : List TraceEntry :=
  st.trace.filter (fun e => decide (e.job = j))

/-- End time of the last placement in a trace fragment (0 when empty). -/
def lastStop (l : List TraceEntry) : Nat :=
  ((l.getLast?).map (fun e => e.stop)).getD 0

/-- Concrete test instance: one job with two unit-sequence operations, both
on machine 0 with processing time 3. -/
def instTwoOps : UnifiedFJSPInstance :=
  { name := "two-ops"
    num_jobs := 1
    num_machines := 1
    operations := [
      { job_id := 0, operation_id := 0, machines := [0], processing_times := [3] },
      { job_id := 0, operation_id := 1, machines := [0], processing_times := [3] }] }

/-- Concrete test instance: one job with a single operation of time 2. -/
def instOneOp : UnifiedFJSPInstance :=
  { name := "one-op"
    num_jobs := 1
    num_machines := 1
    operations := [
      { job_id := 0, operation_id := 0, machines := [0], processing_times := [2] }] }

/-- Concrete test instance: two single-operation jobs whose operations are
both eligible on machines 0 and 1. -/
def instSharedPair : UnifiedFJSPInstance :=
  { name := "shared-pair"
    num_jobs := 2
    num_machines := 2
    operations := [
      { job_id := 0, operation_id := 0, machines := [0, 1], processing_times := [1, 1] },
      { job_id := 1, operation_id := 0, machines := [0, 1], processing_times := [1, 1] }] }

/-- A concrete random oracle whose draws keep every embedded random call in
range for the small test runs: shuffles produce `[0]`, tournaments draw
`[0, 1, 2]`, the uniform samples are 1 (so a rate in `[0,1]` never fires),
and cut/swap positions are `(0, 1)`. -/
def oracleOneOp : RandomOracle :=
  { shuffleDraw := fun _ => [0]
    tournamentDraw := fun _ _ => [0, 1, 2]
    crossDraw := fun _ _ => 1
    cutDraw := fun _ _ => (0, 1)
    mutDraw := fun _ _ => 1
    swapDraw := fun _ _ => (0, 1) }

/-- A concrete random oracle for runs on `instTwoOps`: shuffles produce the
identity genome `[0, 1]`, the `random()` sample for mutation is 0 so any
positive rate fires, and swap positions are `(0, 1)`. -/
def oracleTwoOps : RandomOracle :=
  { shuffleDraw := fun _ => [0, 1]
    tournamentDraw := fun _ _ => [0, 1, 2]
    crossDraw := fun _ _ => 1
    cutDraw := fun _ _ => (0, 1)
    mutDraw := fun _ _ => 0
    swapDraw := fun _ _ => (0, 1) }

/-- Concrete generator oracle: every job gets one operation, on machine 0
with processing time 1. -/
def genOracleConst : GeneratorOracle :=
  { numOpsDraw := fun _ => 1
    machinesDraw := fun _ _ => [0]
    timesDraw := fun _ _ => [1] }

theorem decodeStep_out_of_range (inst : UnifiedFJSPInstance) (st : DecodeState)
    (op_idx : Nat) (h : inst.operations.length ≤ op_idx) :
    decodeStep inst st op_idx = st := by
  simp [decodeStep, Nat.not_lt.mpr h]

theorem foldl_decodeStep_filter (inst : UnifiedFJSPInstance) :
    ∀ (l : List Nat) (st : DecodeState),
      l.foldl (decodeStep inst) st
        = (l.filter (fun i => decide (i < inst.operations.length))).foldl
            (decodeStep inst) st := by
  intro l
  induction l with
  | nil => intro st; rfl
  | cons x xs ih =>
      intro st
      by_cases hx : x < inst.operations.length
      · simp [List.filter_cons, hx, List.foldl_cons, ih]
      · simp [List.filter_cons, hx, List.foldl_cons, ih,
          decodeStep_out_of_range inst st x (Nat.not_lt.mp hx)]

/-- C10: for every genome list and instance, `_decode_solution` silently
skips every genome entry that is `≥ len(instance.operations)`: the step for
such an entry changes nothing (no interval, no machine or job time, no
trace record), and the whole decode equals the decode of the genome with
the out-of-range entries removed, rather than raising an error. -/
theorem c10_decode_ignores_out_of_range_entries (inst : UnifiedFJSPInstance) :
    (∀ (st : DecodeState) (op_idx : Nat), inst.operations.length ≤ op_idx →
        decodeStep inst st op_idx = st) ∧
    (∀ individual : List Nat,
        decodeSolution inst individual
          = decodeSolution inst
              (individual.filter (fun i => decide (i < inst.operations.length)))) := by
  refine ⟨fun st op_idx h => decodeStep_out_of_range inst st op_idx h, fun individual => ?_⟩
  unfold decodeSolution
  exact foldl_decodeStep_filter inst individual (initDecodeState inst)

/-- Witness for C10 at a concrete input: the out-of-range entry 99 is a
no-op step, and decoding `[0, 99, 1]` equals decoding `[0, 1]`. -/
theorem c10_witness :
    decodeStep instTwoOps (initDecodeState instTwoOps) 99 = initDecodeState instTwoOps ∧
    decodeSolution instTwoOps [0, 99, 1] = decodeSolution instTwoOps [0, 1] := by
  constructor
  · exact (c10_decode_ignores_out_of_range_entries instTwoOps).1
      (initDecodeState instTwoOps) 99 (by decide)
  · have h := (c10_decode_ignores_out_of_range_entries instTwoOps).2 [0, 99, 1]
    simpa using h

theorem decode_trace_entry_shape (inst : UnifiedFJSPInstance) :
    ∀ (l : List Nat) (st : DecodeState),
      (∀ e ∈ st.trace, ∃ h : e.opIdx < inst.operations.length,
          e.machine = (inst.operations.get ⟨e.opIdx, h⟩).machines.headD 0 ∧
          e.stop = e.start
            + (inst.operations.get ⟨e.opIdx, h⟩).processing_times.headD 1) →
      ∀ e ∈ (l.foldl (decodeStep inst) st).trace,
        ∃ h : e.opIdx < inst.operations.length,
          e.machine = (inst.operations.get ⟨e.opIdx, h⟩).machines.headD 0 ∧
          e.stop = e.start
            + (inst.operations.get ⟨e.opIdx, h⟩).processing_times.headD 1 := by
  intro l
  induction l with
  | nil => intro st hst; exact hst
  | cons x xs ih =>
      intro st hst
      refine ih (decodeStep inst st x) ?_
      intro e he
      by_cases hx : x < inst.operations.length
      · simp only [decodeStep, dif_pos hx] at he
        rcases List.mem_append.mp he with hold | hnew
        · exact hst e hold
        · simp only [List.mem_singleton] at hnew
          subst hnew
          exact ⟨hx, rfl, rfl⟩
      · rw [decodeStep_out_of_range inst st x (Nat.not_lt.mp hx)] at he
        exact hst e he

/-- C8: every placement made by `_decode_solution` uses the machine at
index 0 of the operation's eligible-machine list and the processing time at
the same index 0 (with the source's fallbacks 0 and 1 for empty lists),
regardless of machine load or of the other eligible machines. -/
theorem c8_decoder_always_picks_first_machine (inst : UnifiedFJSPInstance)
    (individual : List Nat) (e : TraceEntry)
    (he : e ∈ (decodeSolution inst individual).trace) :
    ∃ h : e.opIdx < inst.operations.length,
      e.machine = (inst.operations.get ⟨e.opIdx, h⟩).machines.headD 0 ∧
      e.stop = e.start
        + (inst.operations.get ⟨e.opIdx, h⟩).processing_times.headD 1 := by
  refine decode_trace_entry_shape inst individual (initDecodeState inst) ?_ e he
  intro e' he'
  simp [initDecodeState] at he'

/-- Witness for C8 at a concrete input: decoding `[1, 0]` on the two-
operation instance places operation 1 on machine 0 for 3 time units. -/
theorem c8_witness :
    ∃ h : (⟨1, 0, 0, 0, 3⟩ : TraceEntry).opIdx < instTwoOps.operations.length,
      (⟨1, 0, 0, 0, 3⟩ : TraceEntry).machine
          = (instTwoOps.operations.get ⟨1, h⟩).machines.headD 0 ∧
      (⟨1, 0, 0, 0, 3⟩ : TraceEntry).stop
          = (⟨1, 0, 0, 0, 3⟩ : TraceEntry).start
            + (instTwoOps.operations.get ⟨1, h⟩).processing_times.headD 1 :=
  c8_decoder_always_picks_first_machine instTwoOps [1, 0] ⟨1, 0, 0, 0, 3⟩ (by decide)

/-- C9: `_selection` samples 3 distinct indices without replacement
(`np.random.choice(n, 3, replace=False)`), so with `population_size = 2`
and at least one generation the very first selection raises `ValueError`
and `solve` never completes, for every random oracle and every instance —
even though the configuration's stated lower bound admits
`population_size = 2`. -/
theorem c9_population_two_always_fails (o : RandomOracle)
    (inst : UnifiedFJSPInstance) (cfg : GAConfig)
    (hp : cfg.population_size = 2) (hg : 1 ≤ cfg.generations) :
    gaSolve o inst cfg = .error .valueError := by
  obtain ⟨ps, gens, mr, cr⟩ := cfg
  simp only at hp hg
  subst hp
  obtain ⟨n, hn⟩ : ∃ n, gens = n + 1 :=
    ⟨gens - 1, (Nat.succ_pred_eq_of_pos hg).symm⟩
  subst hn
  rfl

/-- Witness for C9 at a concrete input. -/
theorem c9_witness :
    gaSolve oracleTwoOps instTwoOps ⟨2, 1, 0, 0⟩ = .error .valueError :=
  c9_population_two_always_fails oracleTwoOps instTwoOps ⟨2, 1, 0, 0⟩ rfl
    (by decide)

theorem solve_parallel_mem_shape
    (outcome : String → Option (Except PyError SolutionResult))
    (algorithms : List String) :
    ∀ p ∈ solve_parallel outcome algorithms, outcome p.1 = some (Except.ok p.2) := by
  intro p hp
  obtain ⟨a, _, hfa⟩ := List.mem_filterMap.mp hp
  cases hout : outcome a with
  | none => simp [hout] at hfa
  | some r =>
      cases r with
      | ok v =>
          simp only [hout] at hfa
          cases hfa
          exact hout
      | error e => simp [hout] at hfa

/-- C7: in `UnifiedSolverManager.solve_parallel`, a strategy whose `solve`
raises is caught inside `run_solver` and simply omitted from the returned
mapping (its entry is absent), the exception never propagates, and every
other requested strategy whose `solve` returns normally appears in the
mapping with its result. -/
theorem c7_solve_parallel_isolates_failures
    (outcome : String → Option (Except PyError SolutionResult))
    (algorithms : List String) (a : String) (e : PyError)
    (ha : outcome a = some (Except.error e)) :
    (solve_parallel outcome algorithms).lookup a = none ∧
    ∀ (b : String) (r : SolutionResult), b ∈ algorithms →
      outcome b = some (Except.ok r) → (b, r) ∈ solve_parallel outcome algorithms := by
  constructor
  · induction algorithms with
    | nil => rfl
    | cons x xs ih =>
        simp only [solve_parallel, List.filterMap_cons] at ih ⊢
        cases hx : outcome x with
        | none => exact ih
        | some r =>
            cases r with
            | ok v =>
                have hne : a ≠ x := by
                  intro hax
                  rw [hax, hx] at ha
                  cases ha
                simpa [List.lookup, beq_eq_false_iff_ne.mpr hne] using ih
            | error e' => exact ih
  · intro b r hb hout
    refine List.mem_filterMap.mpr ⟨b, hb, ?_⟩
    simp [hout]

/-- Witness for C7 at a concrete input: strategy "b" fails, strategy "a"
succeeds with an (arbitrary) empty result. -/
theorem c7_witness :
    (solve_parallel
        (fun s => if s = "a" then some (Except.ok ⟨⟨[], [], 0, []⟩, 0, "x", 0, []⟩)
          else if s = "b" then some (Except.error PyError.valueError) else none)
        ["a", "b"]).lookup "b" = none ∧
    ∀ (b : String) (r : SolutionResult), b ∈ ["a", "b"] →
      (fun s => if s = "a" then some (Except.ok ⟨⟨[], [], 0, []⟩, 0, "x", 0, []⟩)
          else if s = "b" then some (Except.error PyError.valueError) else none) b
        = some (Except.ok r) →
      (b, r) ∈ solve_parallel
        (fun s => if s = "a" then some (Except.ok ⟨⟨[], [], 0, []⟩, 0, "x", 0, []⟩)
          else if s = "b" then some (Except.error PyError.valueError) else none)
        ["a", "b"] :=
  c7_solve_parallel_isolates_failures _ ["a", "b"] "b" PyError.valueError (by simp)

theorem exceptMapM_head_error {α β : Type} (f : α → Except PyError β)
    (a : α) (as : List α) (e : PyError) (hfa : f a = .error e) :
    (a :: as).mapM f = .error e := by
  simp [List.mapM, List.mapM.loop, hfa, Bind.bind, Except.bind]

/-- C5 counterexample: `generate_random_fjsp` with `num_jobs = 0` returns a
(degenerate) instance with no operations instead of rejecting the input
with `InvalidInstance`. -/
theorem c5_counterexample :
    generate_random_fjsp genOracleConst 0 3 (1 / 2)
      = Except.ok ⟨"Random_FJSP_0x3", 0, 3, []⟩ := by
  rfl

/-- C5 (amended): instance construction performs no validation at all:
with `num_jobs = 0` the generator returns an instance with an empty
operation list; with `num_machines = 0` (and at least one job with at
least one operation, which `randint(1, ...)` guarantees) it fails with a
`ValueError` raised by `np.random.choice`, not with `InvalidInstance`; and
the `UnifiedFJSPInstance` constructor accepts an operation whose
eligible-machine list is empty. -/
theorem c5_construction_never_validates :
    (∀ (o : GeneratorOracle) (num_machines : Nat) (flex : Rat),
        generate_random_fjsp o 0 num_machines flex
          = Except.ok ⟨"Random_FJSP_" ++ toString 0 ++ "x" ++ toString num_machines,
              0, num_machines, []⟩) ∧
    (∀ (o : GeneratorOracle) (num_jobs : Nat) (flex : Rat),
        1 ≤ num_jobs → 1 ≤ o.numOpsDraw 0 →
        generate_random_fjsp o num_jobs 0 flex = Except.error PyError.valueError) ∧
    (∀ (name : String) (nj nm : Nat) (op : UnifiedOperation), op.machines = [] →
        (mkUnifiedFJSPInstance name nj nm [op]).operations = [op]) := by
  refine ⟨fun o num_machines flex => rfl, ?_, fun name nj nm op _ => rfl⟩
  intro o num_jobs flex hj hops
  obtain ⟨a, ha⟩ : ∃ a, num_jobs = a + 1 :=
    ⟨num_jobs - 1, (Nat.succ_pred_eq_of_pos hj).symm⟩
  obtain ⟨b, hb⟩ : ∃ b, o.numOpsDraw 0 = b + 1 :=
    ⟨o.numOpsDraw 0 - 1, (Nat.succ_pred_eq_of_pos hops).symm⟩
  subst ha
  have hjob : genJobOps o 0 (max 1 (Rat.floor ((0 : Nat) * flex)).toNat) 0
      (o.numOpsDraw 0) = Except.error PyError.valueError := by
    rw [hb]
    unfold genJobOps
    rw [List.range_succ_eq_map]
    exact exceptMapM_head_error _ 0 _ _ (by simp)
  unfold generate_random_fjsp
  rw [List.range_succ_eq_map]
  simp only [Bind.bind]
  rw [exceptMapM_head_error _ 0 _ PyError.valueError hjob]
  rfl

/-- Witness for the amended C5 at concrete inputs. -/
theorem c5_witness :
    generate_random_fjsp genOracleConst 0 7 (1 / 2)
        = Except.ok ⟨"Random_FJSP_" ++ toString 0 ++ "x" ++ toString 7, 0, 7, []⟩ ∧
    generate_random_fjsp genOracleConst 2 0 (1 / 2) = Except.error PyError.valueError ∧
    (mkUnifiedFJSPInstance "empty-machines" 1 1
        [{ job_id := 0, operation_id := 0, machines := [], processing_times := [] }]).operations
      = [{ job_id := 0, operation_id := 0, machines := [], processing_times := [] }] :=
  ⟨c5_construction_never_validates.1 genOracleConst 7 (1 / 2),
   c5_construction_never_validates.2.1 genOracleConst 2 (1 / 2) (by decide) (by decide),
   c5_construction_never_validates.2.2 "empty-machines" 1 1
     { job_id := 0, operation_id := 0, machines := [], processing_times := [] } rfl⟩

/-- C6 counterexample: with the invalid configuration
`mutation_rate = 2 ∉ [0,1]` (population 3, one generation), `solve` does
not fail at all: the generation runs, genomes are decoded (the returned
convergence history `[6]` is the decoded makespan) and a result is
returned. -/
theorem c6_counterexample :
    ¬ ((⟨3, 1, 2, 0⟩ : GAConfig).mutation_rate ≤ 1) ∧
    gaSolve oracleTwoOps instTwoOps ⟨3, 1, 2, 0⟩
      = Except.ok ⟨decodeSolution instTwoOps [0, 1], 6, "GeneticAlgorithm", 1, [6]⟩ := by
  exact ⟨by decide, rfl⟩

/-- C6 (amended): `solve` performs no eager configuration validation.  An
out-of-range rate simply flows into the `random() < rate` comparisons and
the search runs to completion, decoding genomes and returning a result
(concrete run with `mutation_rate = 2`); a non-positive population size is
not rejected up front either — it fails only inside the first generation's
fitness evaluation (`ValueError` from `min()` on an empty list), after the
generation loop has started. -/
theorem c6_no_eager_config_validation :
    (∀ (o : RandomOracle) (inst : UnifiedFJSPInstance) (cfg : GAConfig),
        cfg.population_size = 0 → 1 ≤ cfg.generations →
        gaSolve o inst cfg = Except.error PyError.valueError) ∧
    gaSolve oracleTwoOps instTwoOps ⟨3, 1, 2, 0⟩
      = Except.ok ⟨decodeSolution instTwoOps [0, 1], 6, "GeneticAlgorithm", 1, [6]⟩ := by
  constructor
  · intro o inst cfg hp hg
    obtain ⟨ps, gens, mr, cr⟩ := cfg
    simp only at hp hg
    subst hp
    obtain ⟨n, hn⟩ : ∃ n, gens = n + 1 :=
      ⟨gens - 1, (Nat.succ_pred_eq_of_pos hg).symm⟩
    subst hn
    rfl
  · rfl

/-- Witness for the amended C6 at a concrete input. -/
theorem c6_witness :
    gaSolve oracleOneOp instOneOp ⟨0, 1, 0, 0⟩ = Except.error PyError.valueError :=
  c6_no_eager_config_validation.1 oracleOneOp instOneOp ⟨0, 1, 0, 0⟩ rfl (by decide)


theorem runGeneration_history_step (o : RandomOracle) (inst : UnifiedFJSPInstance)
    (mr cr : Rat) (g : Nat) (st st' : GAState)
    (h : runGeneration o inst mr cr g st = .ok st')
    (hlast : ∀ x ∈ st.history.getLast?, ∃ p, st.best = some p ∧ p.1 ≤ x) :
    (∃ v, st'.history = st.history ++ [v] ∧
        (∀ x ∈ st.history.getLast?, v ≤ x) ∧
        ∃ p, st'.best = some p ∧ p.1 ≤ v) := by
  simp only [runGeneration] at h
  cases hmin : (st.population.map (fun ind => evaluateFitness inst ind)).min? with
  | none =>
      rw [hmin] at h
      exact Except.noConfusion h
  | some m =>
      rw [hmin] at h
      cases hsel : selection o g st.population
          (st.population.map (fun ind => evaluateFitness inst ind)) with
      | error e =>
          rw [hsel] at h
          simp only [Bind.bind, Except.bind] at h
          exact Except.noConfusion h
      | ok sel =>
          rw [hsel] at h
          simp only [Bind.bind, Except.bind] at h
          cases hcr : crossoverPop o g sel cr with
          | error e =>
              rw [hcr] at h
              simp only [Except.bind] at h
              exact Except.noConfusion h
          | ok off =>
              rw [hcr] at h
              simp only [Except.bind] at h
              cases hmu : mutationPop o g off mr with
              | error e =>
                  rw [hmu] at h
                  simp only [Except.bind] at h
                  exact Except.noConfusion h
              | ok mpop =>
                  rw [hmu] at h
                  simp only [Except.bind, Except.ok.injEq] at h
                  subst h
                  cases hbest : st.best with
                  | none =>
                      simp only [hbest]
                      refine ⟨m, rfl, ?_, ⟨_, rfl, le_refl _⟩⟩
                      intro x hx
                      obtain ⟨p, hp, _⟩ := hlast x hx
                      rw [hbest] at hp
                      exact Option.noConfusion hp
                  | some b =>
                      by_cases hlt : m < b.1
                      · simp only [hbest, if_pos hlt]
                        refine ⟨m, rfl, ?_, ⟨_, rfl, le_refl _⟩⟩
                        intro x hx
                        obtain ⟨p, hp, hpx⟩ := hlast x hx
                        rw [hbest] at hp
                        cases hp
                        exact le_trans (le_of_lt hlt) hpx
                      · simp only [hbest, if_neg hlt]
                        refine ⟨b.1, rfl, ?_, ⟨b, rfl, le_refl _⟩⟩
                        intro x hx
                        obtain ⟨p, hp, hpx⟩ := hlast x hx
                        rw [hbest] at hp
                        cases hp
                        exact hpx

theorem gaLoop_history_inv (o : RandomOracle) (inst : UnifiedFJSPInstance)
    (mr cr : Rat) :
    ∀ (n g : Nat) (st st' : GAState),
      gaLoop o inst mr cr n g st = .ok st' →
      st.history.Chain' (fun a b => b ≤ a) →
      (∀ x ∈ st.history.getLast?, ∃ p, st.best = some p ∧ p.1 ≤ x) →
      st'.history.Chain' (fun a b => b ≤ a) := by
  intro n
  induction n with
  | zero =>
      intro g st st' h hchain _
      cases h
      exact hchain
  | succ k ih =>
      intro g st st' h hchain hlast
      unfold gaLoop at h
      cases hgen : runGeneration o inst mr cr g st with
      | error e =>
          rw [hgen] at h
          simp only [Bind.bind, Except.bind] at h
          exact Except.noConfusion h
      | ok st₁ =>
          rw [hgen] at h
          simp only [Bind.bind, Except.bind] at h
          obtain ⟨v, hh, hvx, p, hp, hpv⟩ :=
            runGeneration_history_step o inst mr cr g st st₁ hgen hlast
          refine ih (g + 1) st₁ st' h ?_ ?_
          · rw [hh]
            rw [List.chain'_append]
            refine ⟨hchain, List.chain'_singleton v, ?_⟩
            intro x hx y hy
            simp only [List.head?_cons, Option.mem_def, Option.some.injEq] at hy
            subst hy
            exact hvx x hx
          · intro x hx
            rw [hh, List.getLast?_concat] at hx
            simp only [Option.mem_def, Option.some.injEq] at hx
            subst hx
            exact ⟨p, hp, hpv⟩

/-- C3: for every random oracle, instance and configuration with at least
one generation, whenever `solve` returns a result its
`convergence_history` is monotonically non-increasing across consecutive
entries (the best-known fitness can only improve or stay, and exactly it
is appended each generation). -/
theorem c3_convergence_history_non_increasing (o : RandomOracle)
    (inst : UnifiedFJSPInstance) (cfg : GAConfig) (hg : 1 ≤ cfg.generations)
    (res : SolutionResult) (h : gaSolve o inst cfg = .ok res) :
    res.convergence_history.Chain' (fun a b => b ≤ a) := by
  simp only [gaSolve] at h
  cases hloop : gaLoop o inst cfg.mutation_rate cfg.crossover_rate
      cfg.generations 0 ⟨initPopulation o cfg.population_size, none, []⟩ with
  | error e =>
      rw [hloop] at h
      simp only [Bind.bind, Except.bind] at h
      exact Except.noConfusion h
  | ok final =>
      rw [hloop] at h
      simp only [Bind.bind, Except.bind] at h
      cases hb : final.best with
      | none =>
          rw [hb] at h
          exact Except.noConfusion h
      | some best =>
          rw [hb] at h
          have hres : res.convergence_history = final.history := by
            cases h
            rfl
          rw [hres]
          refine gaLoop_history_inv o inst cfg.mutation_rate cfg.crossover_rate
            cfg.generations 0 _ final hloop ?_ ?_
          · exact List.chain'_nil
          · intro x hx
            simp at hx

/-- Witness for C3 at a concrete input: a full one-generation run whose
history is `[2]`. -/
theorem c3_witness :
    (SolutionResult.mk (decodeSolution instOneOp [0]) 2 "GeneticAlgorithm" 1
        [2]).convergence_history.Chain' (fun a b => b ≤ a) :=
  c3_convergence_history_non_increasing oracleOneOp instOneOp ⟨3, 1, 0, 0⟩
    (by decide) _ rfl

theorem foldl_max_init_le : ∀ (l : List Nat) (init : Nat), init ≤ l.foldl max init := by
  intro l
  induction l with
  | nil => intro init; exact le_refl init
  | cons x xs ih =>
      intro init
      exact le_trans (le_max_left init x) (ih (max init x))

theorem foldl_max_le_of_mem :
    ∀ (l : List Nat) (init x : Nat), x ∈ l → x ≤ l.foldl max init := by
  intro l
  induction l with
  | nil => intro init x hx; cases hx
  | cons y ys ih =>
      intro init x hx
      rcases List.mem_cons.mp hx with hxy | hxs
      · subst hxy
        exact le_trans (le_max_right init x) (foldl_max_init_le ys (max init x))
      · exact ih (max init y) x hxs

theorem snd_le_maxEndTime (l : List (Nat × Nat)) (p : Nat × Nat) (hp : p ∈ l) :
    p.2 ≤ maxEndTime l :=
  foldl_max_le_of_mem (l.map Prod.snd) 0 p.2 (List.mem_map_of_mem Prod.snd hp)

theorem getD_mem_or_nil {α : Type} (l : List (List α)) (n : Nat) :
    l.getD n [] ∈ l ∨ l.getD n [] = [] := by
  rw [List.getD_eq_getElem?_getD]
  by_cases h : n < l.length
  · left
    rw [List.getElem?_eq_getElem h]
    exact List.getElem_mem h
  · right
    rw [List.getElem?_eq_none (Nat.le_of_not_lt h)]
    rfl

theorem decode_machines_pairwise (inst : UnifiedFJSPInstance) :
    ∀ (l : List Nat) (st : DecodeState),
      (∀ ms ∈ st.machineSchedules, ms.Pairwise (fun a b => a.2 ≤ b.1)) →
      ∀ ms ∈ (l.foldl (decodeStep inst) st).machineSchedules,
        ms.Pairwise (fun a b => a.2 ≤ b.1) := by
  intro l
  induction l with
  | nil => intro st hst; exact hst
  | cons x xs ih =>
      intro st hst
      refine ih (decodeStep inst st x) ?_
      intro ms hms
      by_cases hx : x < inst.operations.length
      · simp only [decodeStep, dif_pos hx] at hms
        rcases List.mem_or_eq_of_mem_set hms with hold | hnew
        · exact hst ms hold
        · subst hnew
          rw [List.pairwise_append]
          have hmach : (st.machineSchedules.getD
              ((inst.operations.get ⟨x, hx⟩).machines.headD 0) []).Pairwise
              (fun a b => a.2 ≤ b.1) := by
            rcases getD_mem_or_nil st.machineSchedules
                ((inst.operations.get ⟨x, hx⟩).machines.headD 0) with hmem | hnil
            · exact hst _ hmem
            · rw [hnil]
              exact List.Pairwise.nil
          refine ⟨hmach, List.pairwise_singleton _ _, ?_⟩
          intro a ha b hb
          simp only [List.mem_singleton] at hb
          subst hb
          exact le_trans (snd_le_maxEndTime _ a ha) (le_max_left _ _)
      · rw [decodeStep_out_of_range inst st x (Nat.not_lt.mp hx)] at hms
        exact hst ms hms

theorem jobTrace_inv_step (st : DecodeState) (N : Nat)
    (ms' : List (List (Nat × Nat))) (mk x jid mach s d : Nat)
    (hjid : jid < N) (hlen : st.jobCompletionTimes.length = N)
    (hs : st.jobCompletionTimes.getD jid 0 ≤ s)
    (hst : ∀ j, (jobTrace st j).Chain' (fun a b => a.stop ≤ b.start) ∧
          lastStop (jobTrace st j) ≤ st.jobCompletionTimes.getD j 0) :
    ∀ j, (jobTrace ⟨ms', st.jobCompletionTimes.set jid (s + d), mk,
            st.trace ++ [⟨x, jid, mach, s, s + d⟩]⟩ j).Chain'
            (fun a b => a.stop ≤ b.start) ∧
         lastStop (jobTrace ⟨ms', st.jobCompletionTimes.set jid (s + d), mk,
            st.trace ++ [⟨x, jid, mach, s, s + d⟩]⟩ j)
           ≤ (st.jobCompletionTimes.set jid (s + d)).getD j 0 := by
  intro j
  by_cases hj : jid = j
  · subst hj
    have htr : jobTrace ⟨ms', st.jobCompletionTimes.set jid (s + d), mk,
        st.trace ++ [⟨x, jid, mach, s, s + d⟩]⟩ jid
        = jobTrace st jid ++ [⟨x, jid, mach, s, s + d⟩] := by
      simp [jobTrace, List.filter_append]
    constructor
    · rw [htr, List.chain'_append]
      refine ⟨(hst jid).1, List.chain'_singleton _, ?_⟩
      intro a ha b hb
      simp only [List.head?_cons, Option.mem_def, Option.some.injEq] at hb
      subst hb
      have h2 := (hst jid).2
      unfold lastStop at h2
      rw [Option.mem_def] at ha
      rw [ha] at h2
      simp only [Option.map_some', Option.getD_some] at h2
      exact le_trans h2 hs
    · rw [htr]
      unfold lastStop
      rw [List.getLast?_concat]
      simp only [Option.map_some', Option.getD_some]
      rw [List.getD_eq_getElem?_getD, List.getElem?_set_self]
      · simp
      · rw [hlen]
        exact hjid
  · have htr : jobTrace ⟨ms', st.jobCompletionTimes.set jid (s + d), mk,
        st.trace ++ [⟨x, jid, mach, s, s + d⟩]⟩ j = jobTrace st j := by
      simp [jobTrace, List.filter_append, hj]
    rw [htr]
    refine ⟨(hst j).1, ?_⟩
    rw [List.getD_eq_getElem?_getD, List.getElem?_set_ne hj,
      ← List.getD_eq_getElem?_getD]
    exact (hst j).2

theorem decode_job_chain (inst : UnifiedFJSPInstance)
    (hjobs : ∀ op ∈ inst.operations, op.job_id < inst.num_jobs) :
    ∀ (l : List Nat) (st : DecodeState),
      st.jobCompletionTimes.length = inst.num_jobs →
      (∀ j, (jobTrace st j).Chain' (fun a b => a.stop ≤ b.start) ∧
            lastStop (jobTrace st j) ≤ st.jobCompletionTimes.getD j 0) →
      ∀ j, (jobTrace (l.foldl (decodeStep inst) st) j).Chain'
              (fun a b => a.stop ≤ b.start) := by
  intro l
  induction l with
  | nil => intro st _ hst j; exact (hst j).1
  | cons x xs ih =>
      intro st hlen hst
      simp only [List.foldl_cons]
      by_cases hx : x < inst.operations.length
      · have hjid : (inst.operations.get ⟨x, hx⟩).job_id < inst.num_jobs :=
          hjobs _ (inst.operations.get_mem x hx)
        have hstep : decodeStep inst st x
            = ⟨st.machineSchedules.set ((inst.operations.get ⟨x, hx⟩).machines.headD 0)
                ((st.machineSchedules.getD
                    ((inst.operations.get ⟨x, hx⟩).machines.headD 0) [])
                  ++ [(max (maxEndTime (st.machineSchedules.getD
                        ((inst.operations.get ⟨x, hx⟩).machines.headD 0) []))
                      (st.jobCompletionTimes.getD
                        (inst.operations.get ⟨x, hx⟩).job_id 0),
                    max (maxEndTime (st.machineSchedules.getD
                        ((inst.operations.get ⟨x, hx⟩).machines.headD 0) []))
                      (st.jobCompletionTimes.getD
                        (inst.operations.get ⟨x, hx⟩).job_id 0)
                      + (inst.operations.get ⟨x, hx⟩).processing_times.headD 1)]),
              st.jobCompletionTimes.set (inst.operations.get ⟨x, hx⟩).job_id
                (max (maxEndTime (st.machineSchedules.getD
                      ((inst.operations.get ⟨x, hx⟩).machines.headD 0) []))
                    (st.jobCompletionTimes.getD
                      (inst.operations.get ⟨x, hx⟩).job_id 0)
                  + (inst.operations.get ⟨x, hx⟩).processing_times.headD 1),
              max st.makespan
                (max (maxEndTime (st.machineSchedules.getD
                      ((inst.operations.get ⟨x, hx⟩).machines.headD 0) []))
                    (st.jobCompletionTimes.getD
                      (inst.operations.get ⟨x, hx⟩).job_id 0)
                  + (inst.operations.get ⟨x, hx⟩).processing_times.headD 1),
              st.trace ++ [⟨x, (inst.operations.get ⟨x, hx⟩).job_id,
                (inst.operations.get ⟨x, hx⟩).machines.headD 0,
                max (maxEndTime (st.machineSchedules.getD
                      ((inst.operations.get ⟨x, hx⟩).machines.headD 0) []))
                    (st.jobCompletionTimes.getD
                      (inst.operations.get ⟨x, hx⟩).job_id 0),
                max (maxEndTime (st.machineSchedules.getD
                      ((inst.operations.get ⟨x, hx⟩).machines.headD 0) []))
                    (st.jobCompletionTimes.getD
                      (inst.operations.get ⟨x, hx⟩).job_id 0)
                  + (inst.operations.get ⟨x, hx⟩).processing_times.headD 1⟩]⟩ := by
          simp only [decodeStep, dif_pos hx]
        rw [hstep]
        refine ih _ ?_ ?_
        · simp only [List.length_set]
          exact hlen
        · exact jobTrace_inv_step st inst.num_jobs _ _ x _ _ _ _ hjid hlen
            (le_max_right _ _) hst
      · rw [decodeStep_out_of_range inst st x (Nat.not_lt.mp hx)]
        exact ih st hlen hst

/-- C1 counterexample: on the one-job instance with two operations (each 3
time units on machine 0), the valid permutation genome `[1, 0]` decodes to
a schedule in which operation 1 (the job's second operation) runs during
`[0, 3)` while operation 0 (its predecessor) runs during `[3, 6)`: the
start of operation 1 is not `≥` the end of operation 0, so the claimed
operation-order precedence fails. -/
theorem c1_counterexample :
    ([1, 0] : List Nat).Perm (List.range instTwoOps.operations.length) ∧
    opInterval (decodeSolution instTwoOps [1, 0]) 0 = some (3, 6) ∧
    opInterval (decodeSolution instTwoOps [1, 0]) 1 = some (0, 3) ∧
    ¬ (6 ≤ 0) := by
  refine ⟨by decide, by decide, by decide, by decide⟩

/-- C1 (amended): for every instance whose operations carry valid job ids
and every permutation genome, the decoded schedule has pairwise
non-overlapping intervals on every machine; and for each job the decoder
chains that job's operations in the order they appear in the genome (each
placement starts at or after the end of the job's previously scheduled
placement).  The originally claimed precedence in `operation_id` order
holds only when each job's operations appear in the genome in
`operation_id` order — the decoder itself never consults `operation_id`
(see the counterexample). -/
theorem c1_decode_machine_feasible_job_chained (inst : UnifiedFJSPInstance)
    (individual : List Nat)
    (hjobs : ∀ op ∈ inst.operations, op.job_id < inst.num_jobs)
    (hperm : individual.Perm (List.range inst.operations.length)) :
    (∀ ms ∈ (decodeSolution inst individual).machineSchedules,
        ms.Pairwise (fun a b => a.2 ≤ b.1)) ∧
    (∀ j, (jobTrace (decodeSolution inst individual) j).Chain'
        (fun a b => a.stop ≤ b.start)) := by
  constructor
  · refine decode_machines_pairwise inst individual (initDecodeState inst) ?_
    intro ms hms
    rw [initDecodeState] at hms
    simp only [List.mem_replicate] at hms
    rw [hms.2]
    exact List.Pairwise.nil
  · refine decode_job_chain inst hjobs individual (initDecodeState inst) ?_ ?_
    · simp [initDecodeState]
    · intro j
      constructor
      · simp [jobTrace, initDecodeState]
      · simp [jobTrace, lastStop, initDecodeState]

/-- Witness for the amended C1 at a concrete input. -/
theorem c1_witness :
    (∀ op ∈ instTwoOps.operations, op.job_id < instTwoOps.num_jobs) ∧
    ((∀ ms ∈ (decodeSolution instTwoOps [0, 1]).machineSchedules,
        ms.Pairwise (fun a b => a.2 ≤ b.1)) ∧
     (∀ j, (jobTrace (decodeSolution instTwoOps [0, 1]) j).Chain'
        (fun a b => a.stop ≤ b.start))) :=
  ⟨by decide,
   c1_decode_machine_feasible_job_chained instTwoOps [0, 1] (by decide) (by decide)⟩

theorem fillHoles_spec :
    ∀ (cs : List (Option Nat)) (fs : List Nat),
      cs.countP (fun x => x.isNone) = fs.length →
      ∃ r, fillHoles cs fs = some r ∧ r.Perm (cs.filterMap id ++ fs) := by
  intro cs
  induction cs with
  | nil =>
      intro fs hc
      simp only [List.countP_nil] at hc
      have hfs : fs = [] := List.length_eq_zero.mp hc.symm
      subst hfs
      exact ⟨[], rfl, by simp⟩
  | cons c cs ih =>
      intro fs hc
      cases c with
      | none =>
          cases fs with
          | nil => simp [List.countP_cons] at hc
          | cons f fs' =>
              have hc' : cs.countP (fun x => x.isNone) = fs'.length := by
                simp only [List.countP_cons, Option.isNone_none, if_pos,
                  List.length_cons] at hc
                omega
              obtain ⟨r, hr, hrperm⟩ := ih fs' hc'
              refine ⟨f :: r, ?_, ?_⟩
              · simp [fillHoles, hr]
              · simp only [List.filterMap_cons, id]
                refine (hrperm.cons f).trans ?_
                exact List.perm_middle.symm
      | some v =>
          have hc' : cs.countP (fun x => x.isNone) = fs.length := by
            simpa [List.countP_cons] using hc
          obtain ⟨r, hr, hrperm⟩ := ih fs hc'
          refine ⟨v :: r, ?_, ?_⟩
          · simp [fillHoles, hr]
          · simpa using hrperm.cons v

theorem countP_isNone_replicate (k : Nat) :
    (List.replicate k (none : Option Nat)).countP (fun x => x.isNone) = k := by
  induction k with
  | zero => rfl
  | succ n ih => simp [List.replicate_succ, List.countP_cons, ih]

theorem filterMap_id_replicate_none (k : Nat) :
    (List.replicate k (none : Option Nat)).filterMap id = [] := by
  induction k with
  | zero => rfl
  | succ n ih => simp [List.replicate_succ, ih]

theorem filterMap_id_map_some (l : List Nat) : (l.map some).filterMap id = l := by
  induction l with
  | nil => rfl
  | cons x xs ih => simp [ih]

theorem countP_isNone_map_some (l : List Nat) :
    (l.map some).countP (fun x => x.isNone) = 0 := by
  induction l with
  | nil => rfl
  | cons x xs ih => simp [List.countP_cons, ih]

theorem sliceChild_filterMap (p : List Nat) (s e : Nat) :
    (sliceChild p s e).filterMap id = (p.drop s).take (e - s) := by
  unfold sliceChild
  rw [List.filterMap_append, List.filterMap_append,
    filterMap_id_replicate_none, filterMap_id_map_some,
    filterMap_id_replicate_none]
  simp

theorem sliceChild_countP (p : List Nat) (s e : Nat) :
    (sliceChild p s e).countP (fun x => x.isNone) = s + (p.length - e) := by
  unfold sliceChild
  rw [List.countP_append, List.countP_append, countP_isNone_replicate,
    countP_isNone_map_some, countP_isNone_replicate]
  omega

theorem sliceChild_window (p : List Nat) (s e : Nat) (hse : s ≤ e)
    (hend : e ≤ p.length) :
    (((sliceChild p s e).drop s).take (e - s)).filterMap id
      = (p.drop s).take (e - s) := by
  have hlenB : (((p.drop s).take (e - s)).map some).length = e - s := by
    simp only [List.length_map, List.length_take, List.length_drop]
    omega
  have h1 : (sliceChild p s e).drop s
      = ((p.drop s).take (e - s)).map some ++ List.replicate (p.length - e) none := by
    unfold sliceChild
    rw [List.append_assoc]
    exact List.drop_left' (List.length_replicate s none)
  rw [h1, List.take_left' hlenB]
  exact filterMap_id_map_some _

theorem filter_mem_perm (p2 mid : List Nat) (hnd2 : p2.Nodup) (hmidnd : mid.Nodup)
    (hsub : ∀ x ∈ mid, x ∈ p2) :
    (p2.filter (fun x => decide (x ∈ mid))).Perm mid := by
  rw [List.perm_ext_iff_of_nodup (hnd2.filter _) hmidnd]
  intro a
  simp only [List.mem_filter, decide_eq_true_eq]
  constructor
  · rintro ⟨_, h⟩
    exact h
  · intro h
    exact ⟨hsub a h, h⟩

theorem fill_offspring_perm (pA pB : List Nat) (s e : Nat)
    (hndA : pA.Nodup) (hperm : pB.Perm pA) (hse : s ≤ e) (hend : e ≤ pA.length) :
    ∃ c, fill_offspring (sliceChild pA s e) pB s e = some c ∧ c.Perm pA := by
  have hndB : pB.Nodup := hperm.nodup_iff.mpr hndA
  have hmidsub : ((pA.drop s).take (e - s)).Sublist pA :=
    (List.take_sublist _ _).trans (List.drop_sublist _ _)
  have hmidnd : ((pA.drop s).take (e - s)).Nodup := hndA.sublist hmidsub
  have hsubB : ∀ x ∈ (pA.drop s).take (e - s), x ∈ pB :=
    fun x hx => hperm.mem_iff.mpr (hmidsub.subset hx)
  have hfin : (pB.filter (fun x => decide (x ∈ (pA.drop s).take (e - s)))).Perm
      ((pA.drop s).take (e - s)) :=
    filter_mem_perm pB _ hndB hmidnd hsubB
  have hlenmid : ((pA.drop s).take (e - s)).length = e - s := by
    simp only [List.length_take, List.length_drop]
    omega
  have hlenfil : (pB.filter
      (fun x => !decide (x ∈ (pA.drop s).take (e - s)))).length
      = pA.length - (e - s) := by
    have htot := (List.filter_append_perm
      (fun x => decide (x ∈ (pA.drop s).take (e - s))) pB).length_eq
    have hfl : (pB.filter
        (fun x => decide (x ∈ (pA.drop s).take (e - s)))).length = e - s := by
      rw [hfin.length_eq, hlenmid]
    have hlenB : pB.length = pA.length := hperm.length_eq
    simp only [List.length_append] at htot
    omega
  have hcount : (sliceChild pA s e).countP (fun x => x.isNone)
      = (pB.filter (fun x => !decide (x ∈ (pA.drop s).take (e - s)))).length := by
    rw [sliceChild_countP, hlenfil]
    omega
  obtain ⟨r, hr, hrperm⟩ := fillHoles_spec (sliceChild pA s e) _ hcount
  refine ⟨r, ?_, ?_⟩
  · simp only [fill_offspring]
    rw [sliceChild_window pA s e hse hend]
    exact hr
  · rw [sliceChild_filterMap] at hrperm
    refine hrperm.trans ?_
    refine (hfin.symm.append_right _).trans ?_
    exact (List.filter_append_perm _ pB).trans hperm

/-- C2: for any two parents of equal length at least 2 that are
permutations of the same (duplicate-free) elements and any cut points
`start < end ≤ length`, the order-crossover branch of `_crossover` with
`_fill_offspring` succeeds and both children are again permutations of the
same elements — no duplicates, no omissions. -/
theorem c2_crossover_children_are_permutations (p1 p2 : List Nat) (s e : Nat)
    (hlen : 2 ≤ p1.length) (hnd : p1.Nodup) (hperm : p2.Perm p1)
    (hse : s < e) (hend : e ≤ p1.length) :
    ∃ c1 c2, orderCrossover p1 p2 s e = some (c1, c2)
      ∧ c1.Perm p1 ∧ c2.Perm p1 := by
  obtain ⟨cA, hA, hAperm⟩ :=
    fill_offspring_perm p1 p2 s e hnd hperm (le_of_lt hse) hend
  have hnd2 : p2.Nodup := hperm.nodup_iff.mpr hnd
  have hend2 : e ≤ p2.length := by
    rw [hperm.length_eq]
    exact hend
  obtain ⟨cB, hB, hBperm⟩ :=
    fill_offspring_perm p2 p1 s e hnd2 hperm.symm (le_of_lt hse) hend2
  refine ⟨cA, cB, ?_, hAperm, hBperm.trans hperm⟩
  unfold orderCrossover
  rw [hA, hB]

/-- Witness for C2 at a concrete input. -/
theorem c2_witness :
    ([0, 1, 2] : List Nat).Nodup ∧
    (∃ c1 c2, orderCrossover [0, 1, 2] [2, 0, 1] 1 2 = some (c1, c2)
        ∧ c1.Perm [0, 1, 2] ∧ c2.Perm [0, 1, 2]) :=
  ⟨by decide,
   c2_crossover_children_are_permutations [0, 1, 2] [2, 0, 1] 1 2
     (by decide) (by decide) (by decide) (by decide) (by decide)⟩

theorem lookupEdge_map_update_same (E : List GraphEdge) (u v : GraphNode)
    (a : EdgeType) (hex : ∃ e ∈ E, e.srcNode = u ∧ e.tgtNode = v) :
    lookupEdge (E.map (fun e =>
        if e.srcNode = u ∧ e.tgtNode = v then ⟨u, v, a⟩ else e)) u v
      = some a := by
  induction E with
  | nil => simp at hex
  | cons e E' ih =>
      by_cases he : e.srcNode = u ∧ e.tgtNode = v
      · simp only [List.map_cons, if_pos he]
        unfold lookupEdge
        rw [List.find?_cons_of_pos _ (by simp)]
        rfl
      · simp only [List.map_cons, if_neg he]
        unfold lookupEdge
        rw [List.find?_cons_of_neg _ (by simpa using he)]
        have hex' : ∃ x ∈ E', x.srcNode = u ∧ x.tgtNode = v := by
          obtain ⟨x, hx, hxk⟩ := hex
          rcases List.mem_cons.mp hx with hxe | hxE
          · subst hxe
            exact absurd hxk he
          · exact ⟨x, hxE, hxk⟩
        exact ih hex'

theorem lookupEdge_map_update_other (E : List GraphEdge) (u' v' u v : GraphNode)
    (a : EdgeType) (hne : ¬(u' = u ∧ v' = v)) :
    lookupEdge (E.map (fun e =>
        if e.srcNode = u' ∧ e.tgtNode = v' then ⟨u', v', a⟩ else e)) u v
      = lookupEdge E u v := by
  induction E with
  | nil => rfl
  | cons e E' ih =>
      by_cases he : e.srcNode = u' ∧ e.tgtNode = v'
      · have hkey : ¬(e.srcNode = u ∧ e.tgtNode = v) := by
          intro hk
          exact hne ⟨by rw [← he.1, hk.1], by rw [← he.2, hk.2]⟩
        simp only [List.map_cons, if_pos he]
        unfold lookupEdge
        rw [List.find?_cons_of_neg _ (by simpa using hne),
          List.find?_cons_of_neg _ (by simpa using hkey)]
        exact ih
      · simp only [List.map_cons, if_neg he]
        unfold lookupEdge
        by_cases hk : e.srcNode = u ∧ e.tgtNode = v
        · rw [List.find?_cons_of_pos _ (by simpa using hk),
            List.find?_cons_of_pos _ (by simpa using hk)]
        · rw [List.find?_cons_of_neg _ (by simpa using hk),
            List.find?_cons_of_neg _ (by simpa using hk)]
          exact ih

theorem lookupEdge_addEdge_same (E : List GraphEdge) (u v : GraphNode)
    (a : EdgeType) : lookupEdge (addEdge E u v a) u v = some a := by
  unfold addEdge
  by_cases hany : E.any (fun e => decide (e.srcNode = u ∧ e.tgtNode = v)) = true
  · rw [if_pos hany]
    refine lookupEdge_map_update_same E u v a ?_
    rw [List.any_eq_true] at hany
    obtain ⟨x, hx, hxk⟩ := hany
    exact ⟨x, hx, by simpa using hxk⟩
  · rw [if_neg hany]
    unfold lookupEdge
    rw [List.find?_append]
    have hnone : E.find? (fun e => decide (e.srcNode = u ∧ e.tgtNode = v)) = none := by
      rw [List.find?_eq_none]
      intro x hx
      intro hpx
      exact hany (List.any_eq_true.mpr ⟨x, hx, hpx⟩)
    rw [hnone]
    simp

theorem lookupEdge_addEdge_other (E : List GraphEdge) (u' v' u v : GraphNode)
    (a : EdgeType) (hne : ¬(u' = u ∧ v' = v)) :
    lookupEdge (addEdge E u' v' a) u v = lookupEdge E u v := by
  unfold addEdge
  by_cases hany : E.any (fun e => decide (e.srcNode = u' ∧ e.tgtNode = v')) = true
  · rw [if_pos hany]
    exact lookupEdge_map_update_other E u' v' u v a hne
  · rw [if_neg hany]
    unfold lookupEdge
    rw [List.find?_append]
    have hlast : List.find? (fun e => decide (e.srcNode = u ∧ e.tgtNode = v))
        [(⟨u', v', a⟩ : GraphEdge)] = none := by
      rw [List.find?_eq_none]
      intro x hx
      simp only [List.mem_singleton] at hx
      subst hx
      simpa using hne
    rw [hlast]
    simp

theorem lastWrite_cons_of_key (e : GraphEdge) (L' : List GraphEdge)
    (u v : GraphNode)
    (hfnone : L'.reverse.find?
      (fun x => decide (x.srcNode = u ∧ x.tgtNode = v)) = none)
    (hk : e.srcNode = u ∧ e.tgtNode = v) :
    lastWrite (e :: L') u v = some e.attr := by
  unfold lastWrite
  rw [List.reverse_cons, List.find?_append, hfnone]
  have h1 : List.find? (fun x => decide (x.srcNode = u ∧ x.tgtNode = v)) [e]
      = some e := by
    rw [List.find?_cons_of_pos _ (by simpa using hk)]
  simp [h1]
  exact hk

theorem lastWrite_cons_of_not_key (e : GraphEdge) (L' : List GraphEdge)
    (u v : GraphNode)
    (hfnone : L'.reverse.find?
      (fun x => decide (x.srcNode = u ∧ x.tgtNode = v)) = none)
    (hk : ¬(e.srcNode = u ∧ e.tgtNode = v)) :
    lastWrite (e :: L') u v = none := by
  unfold lastWrite
  rw [List.reverse_cons, List.find?_append, hfnone]
  have h1 : List.find? (fun x => decide (x.srcNode = u ∧ x.tgtNode = v)) [e]
      = none := by
    rw [List.find?_cons_of_neg _ (by simpa using hk)]
    rfl
  simp [h1]
  exact fun hs ht => hk ⟨hs, ht⟩

theorem lastWrite_cons_of_found (e : GraphEdge) (L' : List GraphEdge)
    (u v : GraphNode) (x : GraphEdge)
    (hf : L'.reverse.find?
      (fun x => decide (x.srcNode = u ∧ x.tgtNode = v)) = some x) :
    lastWrite (e :: L') u v = some x.attr := by
  unfold lastWrite
  rw [List.reverse_cons, List.find?_append, hf]
  simp

theorem foldl_addEdge_lookup :
    ∀ (L : List GraphEdge) (E : List GraphEdge) (u v : GraphNode),
      lookupEdge (L.foldl (fun es e => addEdge es e.srcNode e.tgtNode e.attr) E) u v
        = (lastWrite L u v).or (lookupEdge E u v) := by
  intro L
  induction L with
  | nil =>
      intro E u v
      simp [lastWrite]
  | cons e L' ih =>
      intro E u v
      simp only [List.foldl_cons]
      rw [ih]
      cases hf : L'.reverse.find?
          (fun x => decide (x.srcNode = u ∧ x.tgtNode = v)) with
      | some x =>
          have hw : lastWrite L' u v = some x.attr := by
            unfold lastWrite
            rw [hf]
            rfl
          rw [hw, lastWrite_cons_of_found e L' u v x hf]
          rfl
      | none =>
          have hw : lastWrite L' u v = none := by
            unfold lastWrite
            rw [hf]
            rfl
          rw [hw]
          by_cases hk : e.srcNode = u ∧ e.tgtNode = v
          · rw [lastWrite_cons_of_key e L' u v hf hk]
            obtain ⟨hk1, hk2⟩ := hk
            subst hk1
            subst hk2
            rw [lookupEdge_addEdge_same]
            rfl
          · rw [lastWrite_cons_of_not_key e L' u v hf hk]
            rw [lookupEdge_addEdge_other E e.srcNode e.tgtNode u v e.attr hk]

theorem lastWrite_append (L1 L2 : List GraphEdge) (u v : GraphNode) :
    lastWrite (L1 ++ L2) u v = (lastWrite L2 u v).or (lastWrite L1 u v) := by
  unfold lastWrite
  rw [List.reverse_append, List.find?_append]
  cases h : L2.reverse.find? (fun e => decide (e.srcNode = u ∧ e.tgtNode = v)) with
  | none => simp [h]
  | some e => simp [h]

theorem lastWrite_eq_none (L : List GraphEdge) (u v : GraphNode)
    (h : ∀ e ∈ L, ¬(e.srcNode = u ∧ e.tgtNode = v)) :
    lastWrite L u v = none := by
  unfold lastWrite
  have hf : L.reverse.find? (fun e => decide (e.srcNode = u ∧ e.tgtNode = v))
      = none := by
    rw [List.find?_eq_none]
    intro x hx
    simpa using h x (List.mem_reverse.mp hx)
  rw [hf]
  rfl

theorem lastWrite_eq_some (L : List GraphEdge) (u v : GraphNode) (a : EdgeType)
    (hex : ∃ e ∈ L, e.srcNode = u ∧ e.tgtNode = v)
    (hall : ∀ e ∈ L, e.srcNode = u ∧ e.tgtNode = v → e.attr = a) :
    lastWrite L u v = some a := by
  unfold lastWrite
  cases hf : L.reverse.find? (fun e => decide (e.srcNode = u ∧ e.tgtNode = v)) with
  | none =>
      rw [List.find?_eq_none] at hf
      obtain ⟨e, he, hek⟩ := hex
      exact absurd (by simpa using hek) (hf e (List.mem_reverse.mpr he))
  | some e =>
      have hmem : e ∈ L := List.mem_reverse.mp (List.mem_of_find?_eq_some hf)
      have hpred : e.srcNode = u ∧ e.tgtNode = v := by
        have hp := List.find?_some hf
        simpa using hp
      simp only [Option.map_some']
      rw [hall e hmem hpred]

theorem orderedPairs_mem_of :
    ∀ (l : List UnifiedOperation) (p : UnifiedOperation × UnifiedOperation),
      p ∈ orderedPairs l → p.1 ∈ l ∧ p.2 ∈ l := by
  intro l
  induction l with
  | nil => intro p hp; cases hp
  | cons x xs ih =>
      intro p hp
      unfold orderedPairs at hp
      rcases List.mem_append.mp hp with hmap | hrec
      · rw [List.mem_map] at hmap
        obtain ⟨y, hy, hpy⟩ := hmap
        subst hpy
        exact ⟨List.mem_cons_self x xs, List.mem_cons_of_mem x hy⟩
      · obtain ⟨hp1, hp2⟩ := ih p hrec
        exact ⟨List.mem_cons_of_mem x hp1, List.mem_cons_of_mem x hp2⟩

theorem orderedPairs_cover :
    ∀ (l : List UnifiedOperation) (a b : UnifiedOperation),
      a ∈ l → b ∈ l → a ≠ b →
      (a, b) ∈ orderedPairs l ∨ (b, a) ∈ orderedPairs l := by
  intro l
  induction l with
  | nil => intro a b ha _ _; cases ha
  | cons x xs ih =>
      intro a b ha hb hne
      unfold orderedPairs
      rcases List.mem_cons.mp ha with hax | haxs
      · subst hax
        have hbxs : b ∈ xs := by
          rcases List.mem_cons.mp hb with hbx | h
          · exact absurd hbx.symm hne
          · exact h
        exact Or.inl (List.mem_append_left _ (List.mem_map_of_mem _ hbxs))
      · rcases List.mem_cons.mp hb with hbx | hbxs
        · subst hbx
          exact Or.inr (List.mem_append_left _ (List.mem_map_of_mem _ haxs))
        · rcases ih a b haxs hbxs hne with h | h
          · exact Or.inl (List.mem_append_right _ h)
          · exact Or.inr (List.mem_append_right _ h)

theorem machineOps_mem (inst : UnifiedFJSPInstance) (m : Nat)
    (o : UnifiedOperation) :
    o ∈ machineOps inst m ↔ o ∈ inst.operations ∧ m ∈ o.machines := by
  unfold machineOps
  rw [List.mem_filter]
  simp

theorem machineBlock_mem (inst : UnifiedFJSPInstance) (m : Nat) (e : GraphEdge)
    (he : e ∈ machineBlock inst m) :
    ∃ p, p ∈ orderedPairs (machineOps inst m) ∧ p.1.job_id ≠ p.2.job_id ∧
      (e = ⟨opNodeOf p.1, opNodeOf p.2, .disjunctive m⟩ ∨
       e = ⟨opNodeOf p.2, opNodeOf p.1, .disjunctive m⟩) := by
  unfold machineBlock at he
  rw [List.mem_flatten] at he
  obtain ⟨l, hl, hel⟩ := he
  rw [List.mem_map] at hl
  obtain ⟨p, hp, hpl⟩ := hl
  by_cases hj : p.1.job_id ≠ p.2.job_id
  · rw [if_pos hj] at hpl
    subst hpl
    rcases List.mem_cons.mp hel with h1 | h2
    · exact ⟨p, hp, hj, Or.inl h1⟩
    · rw [List.mem_singleton] at h2
      exact ⟨p, hp, hj, Or.inr h2⟩
  · rw [if_neg hj] at hpl
    subst hpl
    cases hel

theorem mem_insertSorted (op x : UnifiedOperation) :
    ∀ (l : List UnifiedOperation), x ∈ insertSorted op l ↔ x = op ∨ x ∈ l := by
  intro l
  induction l with
  | nil => simp [insertSorted]
  | cons y ys ih =>
      unfold insertSorted
      by_cases h : op.operation_id < y.operation_id
      · rw [if_pos h]
        simp
      · rw [if_neg h]
        simp only [List.mem_cons, ih]
        tauto

theorem mem_sortByOpId (x : UnifiedOperation) :
    ∀ (l : List UnifiedOperation), x ∈ sortByOpId l ↔ x ∈ l := by
  intro l
  induction l with
  | nil => simp [sortByOpId]
  | cons y ys ih =>
      unfold sortByOpId
      rw [mem_insertSorted, ih]
      simp

theorem jobOps_job_id (inst : UnifiedFJSPInstance) (j : Nat)
    (o : UnifiedOperation) (ho : o ∈ jobOps inst j) : o.job_id = j := by
  unfold jobOps at ho
  rw [mem_sortByOpId] at ho
  rw [List.mem_filter] at ho
  simpa using ho.2

theorem conjunctiveInserts_no_crossjob (inst : UnifiedFJSPInstance)
    (j1 oid1 j2 oid2 : Nat) (hj : j1 ≠ j2) :
    ∀ e ∈ conjunctiveInserts inst,
      ¬(e.srcNode = GraphNode.opNode j1 oid1 ∧ e.tgtNode = GraphNode.opNode j2 oid2) := by
  intro e he
  unfold conjunctiveInserts at he
  rw [List.mem_flatten] at he
  obtain ⟨l, hl, hel⟩ := he
  rw [List.mem_map] at hl
  obtain ⟨j, _, hjl⟩ := hl
  cases hops : jobOps inst j with
  | nil =>
      rw [hops] at hjl
      subst hjl
      cases hel
  | cons o1 rest =>
      rw [hops] at hjl
      subst hjl
      rcases List.mem_append.mp hel with hfirst | hlast
      · rcases List.mem_cons.mp hfirst with h1 | hmid
        · subst h1
          rintro ⟨hs, _⟩
          cases hs
        · rw [List.mem_map] at hmid
          obtain ⟨pr, hpr, hpre⟩ := hmid
          subst hpre
          rintro ⟨hs, ht⟩
          have hm1 : pr.1 ∈ jobOps inst j := by
            rw [hops]
            exact (List.of_mem_zip hpr).1
          have hm2 : pr.2 ∈ jobOps inst j := by
            rw [hops]
            exact List.mem_cons_of_mem o1 (List.of_mem_zip hpr).2
          have hj1 : pr.1.job_id = j := jobOps_job_id inst j pr.1 hm1
          have hj2 : pr.2.job_id = j := jobOps_job_id inst j pr.2 hm2
          simp only [opNodeOf, GraphNode.opNode.injEq] at hs ht
          exact hj (by rw [← hs.1, ← ht.1, hj1, hj2])
      · rw [List.mem_singleton] at hlast
        subst hlast
        rintro ⟨_, ht⟩
        cases ht

theorem opNodeOf_inj (inst : UnifiedFJSPInstance)
    (hinj : (inst.operations.map opNodeOf).Nodup) (a b : UnifiedOperation)
    (ha : a ∈ inst.operations) (hb : b ∈ inst.operations)
    (hab : opNodeOf a = opNodeOf b) : a = b :=
  List.inj_on_of_nodup_map hinj ha hb hab

theorem machineBlock_lastWrite_none (inst : UnifiedFJSPInstance)
    (hinj : (inst.operations.map opNodeOf).Nodup) (o1 o2 : UnifiedOperation)
    (h1 : o1 ∈ inst.operations) (h2 : o2 ∈ inst.operations) (m : Nat)
    (hnot : ¬(m ∈ o1.machines ∧ m ∈ o2.machines)) :
    lastWrite (machineBlock inst m) (opNodeOf o1) (opNodeOf o2) = none := by
  apply lastWrite_eq_none
  intro e he
  obtain ⟨p, hp, _, he12⟩ := machineBlock_mem inst m e he
  have hp1 := (machineOps_mem inst m p.1).mp (orderedPairs_mem_of _ p hp).1
  have hp2 := (machineOps_mem inst m p.2).mp (orderedPairs_mem_of _ p hp).2
  rintro ⟨hs, ht⟩
  rcases he12 with rfl | rfl
  · simp only at hs ht
    have he1 : p.1 = o1 := opNodeOf_inj inst hinj p.1 o1 hp1.1 h1 hs
    have he2 : p.2 = o2 := opNodeOf_inj inst hinj p.2 o2 hp2.1 h2 ht
    exact hnot ⟨he1 ▸ hp1.2, he2 ▸ hp2.2⟩
  · simp only at hs ht
    have he1 : p.2 = o1 := opNodeOf_inj inst hinj p.2 o1 hp2.1 h1 hs
    have he2 : p.1 = o2 := opNodeOf_inj inst hinj p.1 o2 hp1.1 h2 ht
    exact hnot ⟨he1 ▸ hp2.2, he2 ▸ hp1.2⟩

theorem machineBlock_lastWrite_some (inst : UnifiedFJSPInstance)
    (o1 o2 : UnifiedOperation)
    (h1 : o1 ∈ inst.operations) (h2 : o2 ∈ inst.operations)
    (hjob : o1.job_id ≠ o2.job_id) (m : Nat)
    (hm : m ∈ o1.machines ∧ m ∈ o2.machines) :
    lastWrite (machineBlock inst m) (opNodeOf o1) (opNodeOf o2)
      = some (.disjunctive m) := by
  apply lastWrite_eq_some
  · have ho1 : o1 ∈ machineOps inst m := (machineOps_mem inst m o1).mpr ⟨h1, hm.1⟩
    have ho2 : o2 ∈ machineOps inst m := (machineOps_mem inst m o2).mpr ⟨h2, hm.2⟩
    have hne : o1 ≠ o2 := fun h => hjob (by rw [h])
    rcases orderedPairs_cover _ o1 o2 ho1 ho2 hne with hpair | hpair
    · refine ⟨⟨opNodeOf o1, opNodeOf o2, .disjunctive m⟩, ?_, rfl, rfl⟩
      unfold machineBlock
      rw [List.mem_flatten]
      refine ⟨[⟨opNodeOf o1, opNodeOf o2, .disjunctive m⟩,
               ⟨opNodeOf o2, opNodeOf o1, .disjunctive m⟩], ?_, by simp⟩
      rw [List.mem_map]
      exact ⟨(o1, o2), hpair, by rw [if_pos hjob]⟩
    · refine ⟨⟨opNodeOf o1, opNodeOf o2, .disjunctive m⟩, ?_, rfl, rfl⟩
      unfold machineBlock
      rw [List.mem_flatten]
      refine ⟨[⟨opNodeOf o2, opNodeOf o1, .disjunctive m⟩,
               ⟨opNodeOf o1, opNodeOf o2, .disjunctive m⟩], ?_, by simp⟩
      rw [List.mem_map]
      refine ⟨(o2, o1), hpair, by rw [if_pos (fun h => hjob h.symm)]⟩
  · intro e he _
    obtain ⟨p, _, _, he12⟩ := machineBlock_mem inst m e he
    rcases he12 with rfl | rfl
    · rfl
    · rfl

theorem blocks_lastWrite (inst : UnifiedFJSPInstance)
    (hinj : (inst.operations.map opNodeOf).Nodup) (o1 o2 : UnifiedOperation)
    (h1 : o1 ∈ inst.operations) (h2 : o2 ∈ inst.operations)
    (hjob : o1.job_id ≠ o2.job_id) :
    ∀ (M : List Nat), (∃ m ∈ M, m ∈ o1.machines ∧ m ∈ o2.machines) →
      ∃ m', (m' ∈ o1.machines ∧ m' ∈ o2.machines) ∧
        lastWrite ((M.map (machineBlock inst)).flatten)
          (opNodeOf o1) (opNodeOf o2) = some (.disjunctive m') ∧
        lastWrite ((M.map (machineBlock inst)).flatten)
          (opNodeOf o2) (opNodeOf o1) = some (.disjunctive m') := by
  intro M
  induction M using List.reverseRecOn with
  | nil =>
      rintro ⟨m, hm, _⟩
      cases hm
  | append_singleton M m ih =>
      intro hex
      rw [List.map_append, List.flatten_append]
      simp only [List.map_cons, List.map_nil, List.flatten_cons, List.flatten_nil,
        List.append_nil]
      by_cases hm : m ∈ o1.machines ∧ m ∈ o2.machines
      · refine ⟨m, hm, ?_, ?_⟩
        · rw [lastWrite_append,
            machineBlock_lastWrite_some inst o1 o2 h1 h2 hjob m hm]
          rfl
        · rw [lastWrite_append,
            machineBlock_lastWrite_some inst o2 o1 h2 h1 (fun h => hjob h.symm) m
              ⟨hm.2, hm.1⟩]
          rfl
      · have hex' : ∃ m' ∈ M, m' ∈ o1.machines ∧ m' ∈ o2.machines := by
          obtain ⟨m', hm', hsh⟩ := hex
          rcases List.mem_append.mp hm' with hM | hsingle
          · exact ⟨m', hM, hsh⟩
          · rw [List.mem_singleton] at hsingle
            exact absurd (hsingle ▸ hsh) hm
        obtain ⟨m', hsh', ha, hb⟩ := ih hex'
        refine ⟨m', hsh', ?_, ?_⟩
        · rw [lastWrite_append,
            machineBlock_lastWrite_none inst hinj o1 o2 h1 h2 m hm, ha]
          rfl
        · rw [lastWrite_append,
            machineBlock_lastWrite_none inst hinj o2 o1 h2 h1 m
              (fun h => hm ⟨h.2, h.1⟩), hb]
          rfl

theorem mem_insertionOrder_of_mem (x : Nat) :
    ∀ (l acc : List Nat), x ∈ acc ∨ x ∈ l →
      x ∈ l.foldl (fun acc m => if m ∈ acc then acc else acc ++ [m]) acc := by
  intro l
  induction l with
  | nil =>
      intro acc h
      rcases h with h | h
      · exact h
      · cases h
  | cons y ys ih =>
      intro acc h
      simp only [List.foldl_cons]
      refine ih _ ?_
      by_cases hy : y ∈ acc
      · rw [if_pos hy]
        rcases h with h | h
        · exact Or.inl h
        · rcases List.mem_cons.mp h with rfl | h
          · exact Or.inl hy
          · exact Or.inr h
      · rw [if_neg hy]
        rcases h with h | h
        · exact Or.inl (List.mem_append_left _ h)
        · rcases List.mem_cons.mp h with rfl | h
          · exact Or.inl (List.mem_append_right _ (List.mem_singleton_self x))
          · exact Or.inr h

theorem update_preserves_key (u v : GraphNode) (a : EdgeType) (e : GraphEdge) :
    ((if e.srcNode = u ∧ e.tgtNode = v then (⟨u, v, a⟩ : GraphEdge) else e)).srcNode
        = e.srcNode ∧
    ((if e.srcNode = u ∧ e.tgtNode = v then (⟨u, v, a⟩ : GraphEdge) else e)).tgtNode
        = e.tgtNode := by
  by_cases h : e.srcNode = u ∧ e.tgtNode = v
  · rw [if_pos h]
    exact ⟨h.1.symm, h.2.symm⟩
  · rw [if_neg h]
    exact ⟨rfl, rfl⟩

theorem addEdge_keys_pairwise (E : List GraphEdge) (u v : GraphNode) (a : EdgeType)
    (h : E.Pairwise (fun e1 e2 =>
      ¬(e1.srcNode = e2.srcNode ∧ e1.tgtNode = e2.tgtNode))) :
    (addEdge E u v a).Pairwise (fun e1 e2 =>
      ¬(e1.srcNode = e2.srcNode ∧ e1.tgtNode = e2.tgtNode)) := by
  unfold addEdge
  by_cases hany : E.any (fun e => decide (e.srcNode = u ∧ e.tgtNode = v)) = true
  · rw [if_pos hany]
    refine List.Pairwise.map _ ?_ h
    intro e1 e2 h12 hk
    rw [(update_preserves_key u v a e1).1, (update_preserves_key u v a e2).1,
      (update_preserves_key u v a e1).2, (update_preserves_key u v a e2).2] at hk
    exact h12 hk
  · rw [if_neg hany]
    rw [List.pairwise_append]
    refine ⟨h, List.pairwise_singleton _ _, ?_⟩
    intro x hx y hy
    rw [List.mem_singleton] at hy
    subst hy
    intro hk
    exact hany (List.any_eq_true.mpr ⟨x, hx, by simp [hk.1, hk.2]⟩)

theorem foldl_addEdge_keys_pairwise :
    ∀ (L : List GraphEdge) (E : List GraphEdge),
      E.Pairwise (fun e1 e2 =>
        ¬(e1.srcNode = e2.srcNode ∧ e1.tgtNode = e2.tgtNode)) →
      (L.foldl (fun es e => addEdge es e.srcNode e.tgtNode e.attr) E).Pairwise
        (fun e1 e2 => ¬(e1.srcNode = e2.srcNode ∧ e1.tgtNode = e2.tgtNode)) := by
  intro L
  induction L with
  | nil => intro E h; exact h
  | cons e L' ih =>
      intro E h
      simp only [List.foldl_cons]
      exact ih _ (addEdge_keys_pairwise E e.srcNode e.tgtNode e.attr h)

/-- C4 (amended): `build_disjunctive_graph` stores its edges in an
`nx.DiGraph`, which holds at most one edge per ordered node pair and
overwrites the attributes on re-insertion.  Consequently, for every pair
of distinct operations of different jobs (in an instance with distinct
`(job_id, operation_id)` pairs) sharing at least one machine, the graph
contains exactly one pair of opposite disjunctive edges — not one pair per
shared machine — and both carry a single shared machine tag (the
last-processed shared machine), losing the other shared machines. -/
theorem c4_disjunctive_edges_single_pair (inst : UnifiedFJSPInstance)
    (hinj : (inst.operations.map opNodeOf).Nodup)
    (o1 o2 : UnifiedOperation) (h1 : o1 ∈ inst.operations)
    (h2 : o2 ∈ inst.operations) (hjob : o1.job_id ≠ o2.job_id) (m : Nat)
    (hm1 : m ∈ o1.machines) (hm2 : m ∈ o2.machines) :
    (∃ m', (m' ∈ o1.machines ∧ m' ∈ o2.machines) ∧
      lookupEdge (build_disjunctive_graph inst) (opNodeOf o1) (opNodeOf o2)
        = some (.disjunctive m') ∧
      lookupEdge (build_disjunctive_graph inst) (opNodeOf o2) (opNodeOf o1)
        = some (.disjunctive m')) ∧
    (build_disjunctive_graph inst).Pairwise
      (fun e1 e2 => ¬(e1.srcNode = e2.srcNode ∧ e1.tgtNode = e2.tgtNode)) := by
  constructor
  · have hmO : m ∈ machineOrder inst := by
      unfold machineOrder insertionOrder
      refine mem_insertionOrder_of_mem m _ [] (Or.inr ?_)
      rw [List.mem_flatten]
      exact ⟨o1.machines, List.mem_map_of_mem _ h1, hm1⟩
    obtain ⟨m', hsh', ha, hb⟩ := blocks_lastWrite inst hinj o1 o2 h1 h2 hjob
      (machineOrder inst) ⟨m, hmO, hm1, hm2⟩
    refine ⟨m', hsh', ?_, ?_⟩
    · unfold build_disjunctive_graph
      rw [foldl_addEdge_lookup, lastWrite_append]
      unfold disjunctiveInserts
      rw [ha]
      rfl
    · unfold build_disjunctive_graph
      rw [foldl_addEdge_lookup, lastWrite_append]
      unfold disjunctiveInserts
      rw [hb]
      rfl
  · exact foldl_addEdge_keys_pairwise _ [] List.Pairwise.nil

/-- C4 counterexample: in the two-job instance whose operations share both
machines 0 and 1, the claim demands a disjunctive edge pair tagged with
machine 0 and another tagged with machine 1; but the built `DiGraph` holds
no machine-0-tagged edge at all — only the single overwritten pair tagged
with machine 1 survives. -/
theorem c4_counterexample :
    (∀ op ∈ instSharedPair.operations, 0 ∈ op.machines) ∧
    (GraphEdge.mk (GraphNode.opNode 0 0) (GraphNode.opNode 1 0)
        (EdgeType.disjunctive 0)) ∉ build_disjunctive_graph instSharedPair ∧
    lookupEdge (build_disjunctive_graph instSharedPair)
      (GraphNode.opNode 0 0) (GraphNode.opNode 1 0)
      = some (EdgeType.disjunctive 1) := by
  refine ⟨by decide, by decide, by decide⟩

/-- Witness for the amended C4 at a concrete input. -/
theorem c4_witness :
    (instSharedPair.operations.map opNodeOf).Nodup ∧
    ((∃ m', (m' ∈ (⟨0, 0, [0, 1], [1, 1], 0⟩ : UnifiedOperation).machines ∧
        m' ∈ (⟨1, 0, [0, 1], [1, 1], 0⟩ : UnifiedOperation).machines) ∧
      lookupEdge (build_disjunctive_graph instSharedPair)
          (opNodeOf ⟨0, 0, [0, 1], [1, 1], 0⟩) (opNodeOf ⟨1, 0, [0, 1], [1, 1], 0⟩)
        = some (.disjunctive m') ∧
      lookupEdge (build_disjunctive_graph instSharedPair)
          (opNodeOf ⟨1, 0, [0, 1], [1, 1], 0⟩) (opNodeOf ⟨0, 0, [0, 1], [1, 1], 0⟩)
        = some (.disjunctive m')) ∧
    (build_disjunctive_graph instSharedPair).Pairwise
      (fun e1 e2 => ¬(e1.srcNode = e2.srcNode ∧ e1.tgtNode = e2.tgtNode))) :=
  ⟨by decide,
   c4_disjunctive_edges_single_pair instSharedPair (by decide)
     ⟨0, 0, [0, 1], [1, 1], 0⟩ ⟨1, 0, [0, 1], [1, 1], 0⟩
     (by decide) (by decide) (by decide) 0 (by decide) (by decide)⟩
